import Mathlib

/-!
Verification development for the globallinks Common Crawl link-extraction
pipeline.  The Go sources are shallowly embedded: strings are represented as
`List Char` (Go strings compared bytewise agree with code-point order on valid
UTF-8), Go `int` is `Int`, fallible code returns `Option`, and code that can
dereference a nil pointer runs in a `GoResult` monad whose `panicked`
constructor models a Go runtime panic.  File I/O is modelled by returning the
list of lines that the code writes.
-/

/-- Strings of the embedded Go program, represented as lists of characters so
that every operation is structural recursion and evaluates in the kernel. -/
abbrev Str := List Char

/-- Convert a Lean string literal to the embedded representation. -/
def str (s : String) : Str := s.data

/-- Bytewise (code-point) strict order on strings, as Go's `<` on `string`. -/
def strLt : Str → Str → Bool
  | [], [] => false
  | [], _ :: _ => true
  | _ :: _, [] => false
  | a :: as, b :: bs =>
      if a.toNat < b.toNat then true
      else if b.toNat < a.toNat then false
      else strLt as bs

/-- Go's `strings.Contains` for a single character. -/
def strHasChar (s : Str) (c : Char) : Bool := s.contains c

/-- Go's `strings.HasPrefix`. -/
def strStarts (s p : Str) : Bool :=
  match s, p with
  | _, [] => true
  | [], _ :: _ => false
  | a :: as, b :: bs => a == b && strStarts as bs

/-- Go's `strings.HasSuffix`. -/
def strEnds (s p : Str) : Bool := strStarts s.reverse p.reverse

/-- Substring test, Go's `strings.Contains`. -/
def strHasSub (s sub : Str) : Bool :=
  match s with
  | [] => strStarts [] sub
  | _ :: rest => strStarts s sub || strHasSub rest sub

/-- Go's `strings.Split` with a one-character separator: `splitAllAux sep cs acc`
accumulates the current field in reverse in `acc`. -/
def splitAllAux (sep : Char) : Str → Str → List Str
  | [], acc => [acc.reverse]
  | c :: cs, acc =>
      if c == sep then acc.reverse :: splitAllAux sep cs []
      else splitAllAux sep cs (c :: acc)

/-- Go's `strings.Split(s, string(sep))` for a one-character separator. -/
def splitAll (sep : Char) (s : Str) : List Str := splitAllAux sep s []

/-- Split at the first occurrence of `sep`: returns the part before it and,
when the separator occurs, the part after it. -/
def splitFirst (sep : Char) : Str → Str × Option Str
  | [] => ([], none)
  | c :: cs =>
      if c == sep then ([], some cs)
      else
        let r := splitFirst sep cs
        (c :: r.1, r.2)

/-- Join fields with a one-character separator (inverse of `splitAll`). -/
def joinSep (sep : Char) : List Str → Str
  | [] => []
  | [f] => f
  | f :: fs => f ++ sep :: joinSep sep fs

/-- ASCII lower-casing of a character, the fragment of Go's `strings.ToLower`
relevant here (the sources only lower-case hosts and file extensions). -/
def lowerChar (c : Char) : Char :=
  if 'A' ≤ c && c ≤ 'Z' then Char.ofNat (c.toNat + 32) else c

/-- Go's `strings.ToLower`, restricted to ASCII case mapping. -/
def strToLower (s : Str) : Str := s.map lowerChar

/-- Whitespace test used by Go's `strings.TrimSpace` (ASCII fragment). -/
def isSpaceChar (c : Char) : Bool :=
  c == ' ' || c == '\t' || c == '\n' || c == '\r'

/-- Go's `strings.TrimSpace` (ASCII fragment). -/
def strTrimSpace (s : Str) : Str :=
  ((s.dropWhile isSpaceChar).reverse.dropWhile isSpaceChar).reverse

/-- Go's `strings.TrimSuffix`. -/
def strTrimSuffix (s suf : Str) : Str :=
  if strEnds s suf then s.take (s.length - suf.length) else s

/-- Go's `strings.ReplaceAll(s, old, new)` for one-character old/new, the only
form the sources use (`|` replaced by a space in anchor text and titles). -/
def strReplaceChar (s : Str) (old new : Char) : Str :=
  s.map (fun c => if c == old then new else c)

/-- Decimal digits of a natural number, most significant first; `fuel` bounds
the recursion so the definition is structural and kernel-evaluable. -/
def natDigitsAux : Nat → Nat → Str
  | 0, _ => []
  | fuel + 1, n =>
      if n < 10 then [Char.ofNat (48 + n)]
      else natDigitsAux fuel (n / 10) ++ [Char.ofNat (48 + n % 10)]

/-- Decimal rendering of a natural number. -/
def natToStr (n : Nat) : Str := natDigitsAux (n + 1) n

/-- Go's `%d` / `strconv.Itoa` rendering of an integer. -/
def intToStr (n : Int) : Str :=
  if n < 0 then '-' :: natToStr n.natAbs else natToStr n.natAbs

/-- Digit test. -/
def isDigitChar (c : Char) : Bool := '0' ≤ c && c ≤ '9'

/-- Accumulating helper for `digitsToNat`. -/
def digitsToNatAux : Str → Nat → Option Nat
  | [], acc => some acc
  | c :: cs, acc =>
      if isDigitChar c then digitsToNatAux cs (acc * 10 + (c.toNat - 48))
      else none

/-- Numeric value of a digit string (most significant first), `none` when the
string is empty or contains a non-digit. -/
def digitsToNat : Str → Option Nat
  | [] => none
  | cs => digitsToNatAux cs 0

/-- Largest Go `int64`. -/
def goMaxInt : Int := 9223372036854775807

/-- Smallest Go `int64`. -/
def goMinInt : Int := -9223372036854775808

/-- Go's `strconv.Atoi` with the error ignored, as the importer calls it: the
parsed value on success, `0` on a syntax error, and the clamped extreme value
on range overflow (Go returns the clamped value together with `ErrRange`). -/
def goAtoi (s : Str) : Int :=
  match s with
  | '-' :: rest =>
      match digitsToNat rest with
      | none => 0
      | some n => if (n : Int) > -goMinInt then goMinInt else -(n : Int)
  | '+' :: rest =>
      match digitsToNat rest with
      | none => 0
      | some n => if (n : Int) > goMaxInt then goMaxInt else (n : Int)
  | _ =>
      match digitsToNat s with
      | none => 0
      | some n => if (n : Int) > goMaxInt then goMaxInt else (n : Int)

/-! ## Compaction stage (importer `aggressiveCompacting`, `compareRecords`) -/

/-- FileLinkCompacted - compacted link file (importer). -/
structure FileLinkCompacted where
  LinkDomain : Str
  LinkSubDomain : Str
  LinkPath : Str
  LinkRawQuery : Str
  LinkScheme : Str
  PageHost : Str
  PagePath : Str
  PageRawQuery : Str
  PageScheme : Str
  LinkText : Str
  NoFollow : Int
  NoIndex : Int
  DateFrom : Str
  DateTo : Str
  IP : Str
  Qty : Int
deriving DecidableEq, Repr

/-- The zero value of `FileLinkCompacted`, as produced by
`FileLinkCompacted{}` in Go. -/
def emptyFileLinkCompacted : FileLinkCompacted :=
  { LinkDomain := [], LinkSubDomain := [], LinkPath := [], LinkRawQuery := []
    LinkScheme := [], PageHost := [], PagePath := [], PageRawQuery := []
    PageScheme := [], LinkText := [], NoFollow := 0, NoIndex := 0
    DateFrom := [], DateTo := [], IP := [], Qty := 0 }

/-- Parsing of one line of the sorted stream inside `aggressiveCompacting`:
split on `|`, skip the line unless it has exactly 14 fields, then populate the
record (`DateFrom` and `DateTo` both from field 12, `Qty` starting at 1). -/
def parseCompactLine (line : Str) : Option FileLinkCompacted :=
  match splitAll '|' line with
  | [p0, p1, p2, p3, p4, p5, p6, p7, p8, p9, p10, p11, p12, p13] =>
      some { LinkDomain := p0, LinkSubDomain := p1, LinkPath := p2
             LinkRawQuery := p3, LinkScheme := p4, PageHost := p5
             PagePath := p6, PageRawQuery := p7, PageScheme := p8
             LinkText := p9, NoFollow := goAtoi p10, NoIndex := goAtoi p11
             DateFrom := p12, DateTo := p12, IP := p13, Qty := 1 }
  | _ => none

/-- compareRecords - compare compacted record and next record, returning
`true` when the current accumulator should be saved; when it returns `false`
the second component is the accumulator updated with information from the
current record (the Go function mutates `finalLink` through a pointer). -/
def compareRecords (fileLink : FileLinkCompacted) (finalLink : FileLinkCompacted) :
    Bool × FileLinkCompacted :=
  if fileLink.LinkDomain = [] then (true, finalLink)
  else if fileLink.LinkDomain ≠ finalLink.LinkDomain ∨
      fileLink.LinkSubDomain ≠ finalLink.LinkSubDomain ∨
      fileLink.LinkPath ≠ finalLink.LinkPath ∨
      fileLink.LinkRawQuery ≠ finalLink.LinkRawQuery ∨
      fileLink.PageHost ≠ finalLink.PageHost then (true, finalLink)
  else if finalLink.NoFollow = 0 ∧ fileLink.NoFollow = 1 then (false, finalLink)
  else
    let f1 := { finalLink with
      DateFrom := if strLt fileLink.DateFrom finalLink.DateFrom then
          fileLink.DateFrom else finalLink.DateFrom
      DateTo := if strLt finalLink.DateTo fileLink.DateTo then
          fileLink.DateTo else finalLink.DateTo
      IP := fileLink.IP }
    let f2 :=
      if fileLink.PagePath ≠ f1.PagePath ∨ fileLink.PageRawQuery ≠ f1.PageRawQuery then
        let f3 :=
          if fileLink.PagePath.length < f1.PagePath.length then
            if fileLink.PageRawQuery.length ≤ f1.PageRawQuery.length then
              { f1 with PageRawQuery := fileLink.PageRawQuery
                        PagePath := fileLink.PagePath }
            else f1
          else if fileLink.PagePath.length = f1.PagePath.length ∧
              fileLink.PageRawQuery.length < f1.PageRawQuery.length then
            { f1 with PageRawQuery := fileLink.PageRawQuery }
          else f1
        { f3 with Qty := f3.Qty + 1 }
      else f1
    (false, f2)

/-- One iteration of the scan loop in `aggressiveCompacting` on an already
parsed record: state is (records appended to `linksToSave` so far, current
`finalLink` accumulator). -/
def compactStep (st : List FileLinkCompacted × FileLinkCompacted)
    (r : FileLinkCompacted) : List FileLinkCompacted × FileLinkCompacted :=
  let save := (compareRecords r st.2).1
  let acc' := (compareRecords r st.2).2
  if save then
    (st.1 ++ (if acc'.LinkDomain = [] then [] else [acc']), r)
  else (st.1, acc')

/-- The scan loop of `aggressiveCompacting` over all input lines (lines that
do not split into 14 fields are skipped): returns the records written to the
compacted output, in order, together with the accumulator left over at end of
stream.  The every-10000-lines flush only chunks the writes and does not
change which records are written or their order. -/
def compactRun (lines : List Str) : List FileLinkCompacted × FileLinkCompacted :=
  (lines.filterMap parseCompactLine).foldl compactStep ([], emptyFileLinkCompacted)

/-- aggressiveCompacting - the records the compacting stage writes to the
compacted output file for the given sorted input lines. -/
def aggressiveCompacting (lines : List Str) : List FileLinkCompacted :=
  (compactRun lines).1

/-- Whether `aggressiveCompacting` creates the compacted output file at all:
`saveFinalLinksToFile` (which opens the file with `O_CREATE`) runs when the
10000-line flush fires at least once, or when the remaining batch at end of
stream is non-empty. -/
def compactCreatesFile (lines : List Str) : Bool :=
  decide (10000 ≤ lines.length) || !(aggressiveCompacting lines).isEmpty

/-! ## Compaction theory: decomposition of the scan into same-key runs -/

/-- The grouping key of the compaction stage:
`(linkDomain, linkSubdomain, linkPath, linkRawQuery, pageHost)`. -/
def recKey (r : FileLinkCompacted) : Str × Str × Str × Str × Str :=
  (r.LinkDomain, r.LinkSubDomain, r.LinkPath, r.LinkRawQuery, r.PageHost)

/-- Merging one record into the accumulator (the in-place update performed by
`compareRecords` when it returns `false`; when it returns `true` the
accumulator is left unchanged, which this function also reflects). -/
def mergeStep (acc r : FileLinkCompacted) : FileLinkCompacted :=
  (compareRecords r acc).2

/-- Helper for `chunkRuns`: current run head `h`, members collected so far in
reverse in `acc`, remaining records. -/
def chunkRunsAux : List FileLinkCompacted → FileLinkCompacted → List FileLinkCompacted →
    List (FileLinkCompacted × List FileLinkCompacted)
  | [], h, acc => [(h, acc.reverse)]
  | r :: rs, h, acc =>
      if recKey r = recKey h then chunkRunsAux rs h (r :: acc)
      else (h, acc.reverse) :: chunkRunsAux rs r []

/-- Maximal runs of adjacent records sharing the grouping key, each as
(run head, remaining members of the run in order). -/
def chunkRuns : List FileLinkCompacted → List (FileLinkCompacted × List FileLinkCompacted)
  | [] => []
  | r :: rs => chunkRunsAux rs r []

/-- Records of a run list, in order. -/
def flattenRuns (runs : List (FileLinkCompacted × List FileLinkCompacted)) :
    List FileLinkCompacted :=
  runs.flatMap (fun p => p.1 :: p.2)

/-- The record the compactor reduces a run to: the head merged with each
later member in order. -/
def reduceRun (p : FileLinkCompacted × List FileLinkCompacted) : FileLinkCompacted :=
  p.2.foldl mergeStep p.1

/-- Number of merge steps of a run that take the page-representative branch
(the only branch that increments `qty`): a member `r` counts when it is not
suppressed by the nofollow rule and differs from the current accumulator in
`pagePath` or `pageRawQuery`. -/
def qtyCount : FileLinkCompacted → List FileLinkCompacted → Int
  | _, [] => 0
  | a, r :: rs =>
      (if ¬(a.NoFollow = 0 ∧ r.NoFollow = 1) ∧
          (r.PagePath ≠ a.PagePath ∨ r.PageRawQuery ≠ a.PageRawQuery)
       then 1 else 0) + qtyCount (mergeStep a r) rs

theorem compareRecords_true_of_newKey (f a : FileLinkCompacted)
    (hd : f.LinkDomain ≠ []) (hk : recKey f ≠ recKey a) :
    compareRecords f a = (true, a) := by
  have hdisj : f.LinkDomain ≠ a.LinkDomain ∨ f.LinkSubDomain ≠ a.LinkSubDomain ∨
      f.LinkPath ≠ a.LinkPath ∨ f.LinkRawQuery ≠ a.LinkRawQuery ∨
      f.PageHost ≠ a.PageHost := by
    by_contra hcon
    push_neg at hcon
    exact hk (by simp [recKey, hcon.1, hcon.2.1, hcon.2.2.1, hcon.2.2.2.1, hcon.2.2.2.2])
  unfold compareRecords
  rw [if_neg hd, if_pos hdisj]

theorem compareRecords_fst_false_of_sameKey (f a : FileLinkCompacted)
    (hd : f.LinkDomain ≠ []) (hk : recKey f = recKey a) :
    (compareRecords f a).1 = false := by
  have h1 : f.LinkDomain = a.LinkDomain := congrArg (·.1) hk
  have h2 : f.LinkSubDomain = a.LinkSubDomain := congrArg (·.2.1) hk
  have h3 : f.LinkPath = a.LinkPath := congrArg (·.2.2.1) hk
  have h4 : f.LinkRawQuery = a.LinkRawQuery := congrArg (·.2.2.2.1) hk
  have h5 : f.PageHost = a.PageHost := congrArg (·.2.2.2.2) hk
  unfold compareRecords
  rw [if_neg hd, if_neg (by simp [h1, h2, h3, h4, h5])]
  split <;> rfl

theorem mergeStep_key (a r : FileLinkCompacted) : recKey (mergeStep a r) = recKey a := by
  unfold mergeStep compareRecords
  dsimp only
  split_ifs <;> rfl

theorem mergeStep_noFollow (a r : FileLinkCompacted) :
    (mergeStep a r).NoFollow = a.NoFollow := by
  unfold mergeStep compareRecords
  dsimp only
  split_ifs <;> rfl

theorem mergeStep_linkDomain (a r : FileLinkCompacted) :
    (mergeStep a r).LinkDomain = a.LinkDomain :=
  congrArg (fun k => k.1) (mergeStep_key a r)

theorem foldlMerge_key (rs : List FileLinkCompacted) :
    ∀ a : FileLinkCompacted, recKey (rs.foldl mergeStep a) = recKey a := by
  induction rs with
  | nil => intro a; rfl
  | cons r rs ih =>
      intro a
      calc recKey ((r :: rs).foldl mergeStep a) = recKey (rs.foldl mergeStep (mergeStep a r)) := rfl
        _ = recKey (mergeStep a r) := ih (mergeStep a r)
        _ = recKey a := mergeStep_key a r

theorem foldlMerge_noFollow (rs : List FileLinkCompacted) :
    ∀ a : FileLinkCompacted, (rs.foldl mergeStep a).NoFollow = a.NoFollow := by
  induction rs with
  | nil => intro a; rfl
  | cons r rs ih =>
      intro a
      calc ((r :: rs).foldl mergeStep a).NoFollow
          = (rs.foldl mergeStep (mergeStep a r)).NoFollow := rfl
        _ = (mergeStep a r).NoFollow := ih (mergeStep a r)
        _ = a.NoFollow := mergeStep_noFollow a r

theorem foldlMerge_linkDomain (rs : List FileLinkCompacted) (a : FileLinkCompacted) :
    (rs.foldl mergeStep a).LinkDomain = a.LinkDomain :=
  congrArg (fun k => k.1) (foldlMerge_key rs a)

theorem compactStep_of_false (st : List FileLinkCompacted × FileLinkCompacted)
    (r : FileLinkCompacted) (h : (compareRecords r st.2).1 = false) :
    compactStep st r = (st.1, (compareRecords r st.2).2) := by
  simp [compactStep, h]

theorem compactStep_of_true (st : List FileLinkCompacted × FileLinkCompacted)
    (r : FileLinkCompacted) (h : compareRecords r st.2 = (true, st.2)) :
    compactStep st r =
      (st.1 ++ (if st.2.LinkDomain = [] then [] else [st.2]), r) := by
  simp [compactStep, h]

/-- While records of the same key as the accumulator arrive, the scan loop
emits nothing and just merges them in. -/
theorem compactFold_sameKey (rs : List FileLinkCompacted) :
    ∀ (a : FileLinkCompacted) (out : List FileLinkCompacted),
    (∀ r ∈ rs, recKey r = recKey a ∧ r.LinkDomain ≠ []) →
    rs.foldl compactStep (out, a) = (out, rs.foldl mergeStep a) := by
  induction rs with
  | nil => intro a out _; rfl
  | cons r rs ih =>
      intro a out h
      have hr := h r (List.mem_cons_self r rs)
      have hfst : (compareRecords r a).1 = false :=
        compareRecords_fst_false_of_sameKey r a hr.2 hr.1
      have hstep : compactStep (out, a) r = (out, mergeStep a r) :=
        compactStep_of_false (out, a) r hfst
      have hrest : ∀ r' ∈ rs, recKey r' = recKey (mergeStep a r) ∧ r'.LinkDomain ≠ [] := by
        intro r' hm
        exact ⟨(h r' (List.mem_cons_of_mem r hm)).1.trans (mergeStep_key a r).symm,
               (h r' (List.mem_cons_of_mem r hm)).2⟩
      calc (r :: rs).foldl compactStep (out, a)
          = rs.foldl compactStep (compactStep (out, a) r) := rfl
        _ = rs.foldl compactStep (out, mergeStep a r) := by rw [hstep]
        _ = (out, rs.foldl mergeStep (mergeStep a r)) := ih (mergeStep a r) out hrest
        _ = (out, (r :: rs).foldl mergeStep a) := rfl

/-- Well-formedness of a run list: every member of a run has the key of its
head, and all link domains are non-empty. -/
def RunsWF (runs : List (FileLinkCompacted × List FileLinkCompacted)) : Prop :=
  ∀ p ∈ runs, p.1.LinkDomain ≠ [] ∧
    ∀ r ∈ p.2, recKey r = recKey p.1 ∧ r.LinkDomain ≠ []

/-- Adjacent runs carry different keys. -/
def RunsChain (runs : List (FileLinkCompacted × List FileLinkCompacted)) : Prop :=
  List.Chain' (fun p q => recKey q.1 ≠ recKey p.1) runs

/-- Processing a non-empty well-formed run list starting from accumulator
`acc` whose key differs from the first run's key: the scan emits the
accumulator (when non-empty) followed by the reductions of all runs but the
last, and leaves the last run's reduction in the accumulator. -/
theorem compactFold_runs (runs : List (FileLinkCompacted × List FileLinkCompacted)) :
    ∀ (h : FileLinkCompacted) (t : List FileLinkCompacted)
      (acc : FileLinkCompacted) (out : List FileLinkCompacted),
    RunsWF ((h, t) :: runs) → RunsChain ((h, t) :: runs) →
    recKey h ≠ recKey acc →
    (flattenRuns ((h, t) :: runs)).foldl compactStep (out, acc) =
      (out ++ (if acc.LinkDomain = [] then [] else [acc]) ++
        (((h, t) :: runs).map reduceRun).dropLast,
       reduceRun (((h, t) :: runs).getLast (by simp))) := by
  induction runs with
  | nil =>
      intro h t acc out hwf _ hne
      have hhd : h.LinkDomain ≠ [] := (hwf (h, t) (by simp)).1
      have hcr : compareRecords h acc = (true, acc) :=
        compareRecords_true_of_newKey h acc hhd hne
      have hflat : flattenRuns [(h, t)] = h :: t := by
        simp [flattenRuns]
      rw [hflat]
      have hstep : compactStep (out, acc) h =
          (out ++ (if acc.LinkDomain = [] then [] else [acc]), h) :=
        compactStep_of_true (out, acc) h hcr
      have hrun : ∀ r ∈ t, recKey r = recKey h ∧ r.LinkDomain ≠ [] := by
        intro r hm; exact (hwf (h, t) (by simp)).2 r hm
      calc (h :: t).foldl compactStep (out, acc)
          = t.foldl compactStep (compactStep (out, acc) h) := rfl
        _ = t.foldl compactStep (out ++ (if acc.LinkDomain = [] then [] else [acc]), h) := by
            rw [hstep]
        _ = (out ++ (if acc.LinkDomain = [] then [] else [acc]), t.foldl mergeStep h) :=
            compactFold_sameKey t h _ hrun
        _ = (out ++ (if acc.LinkDomain = [] then [] else [acc]) ++
              ([(h, t)].map reduceRun).dropLast,
             reduceRun ([(h, t)].getLast (by simp))) := by
            simp [reduceRun]
  | cons q rest ih =>
      intro h t acc out hwf hchain hne
      obtain ⟨q1, q2⟩ := q
      have hhd : h.LinkDomain ≠ [] := (hwf (h, t) (by simp)).1
      have hcr : compareRecords h acc = (true, acc) :=
        compareRecords_true_of_newKey h acc hhd hne
      have hstep : compactStep (out, acc) h =
          (out ++ (if acc.LinkDomain = [] then [] else [acc]), h) :=
        compactStep_of_true (out, acc) h hcr
      have hrun : ∀ r ∈ t, recKey r = recKey h ∧ r.LinkDomain ≠ [] := by
        intro r hm; exact (hwf (h, t) (by simp)).2 r hm
      have hflat : flattenRuns ((h, t) :: (q1, q2) :: rest) =
          (h :: t) ++ flattenRuns ((q1, q2) :: rest) := by
        simp [flattenRuns]
      have hwf' : RunsWF ((q1, q2) :: rest) := by
        intro p hp
        exact hwf p (List.mem_cons_of_mem (h, t) hp)
      have hchain' : RunsChain ((q1, q2) :: rest) := (List.chain'_cons'.mp hchain).2
      have hqh : recKey q1 ≠ recKey h := by
        have := (List.chain'_cons'.mp hchain).1
        simpa using this (q1, q2) rfl
      have hqk : recKey q1 ≠ recKey (t.foldl mergeStep h) := by
        rw [foldlMerge_key t h]; exact hqh
      have hreddom : (t.foldl mergeStep h).LinkDomain ≠ [] := by
        rw [foldlMerge_linkDomain t h]; exact hhd
      rw [hflat, List.foldl_append]
      have hfirst : (h :: t).foldl compactStep (out, acc) =
          (out ++ (if acc.LinkDomain = [] then [] else [acc]), t.foldl mergeStep h) := by
        calc (h :: t).foldl compactStep (out, acc)
            = t.foldl compactStep (compactStep (out, acc) h) := rfl
          _ = t.foldl compactStep (out ++ (if acc.LinkDomain = [] then [] else [acc]), h) := by
              rw [hstep]
          _ = (out ++ (if acc.LinkDomain = [] then [] else [acc]), t.foldl mergeStep h) :=
              compactFold_sameKey t h _ hrun
      rw [hfirst]
      rw [ih q1 q2 (t.foldl mergeStep h) _ hwf' hchain' hqk]
      have hemit : (if (t.foldl mergeStep h).LinkDomain = [] then []
          else [t.foldl mergeStep h]) = [reduceRun (h, t)] := by
        rw [if_neg hreddom]; rfl
      rw [hemit]
      have hdrop : ((((h, t) :: (q1, q2) :: rest)).map reduceRun).dropLast =
          reduceRun (h, t) :: ((((q1, q2) :: rest)).map reduceRun).dropLast := rfl
      rw [hdrop]
      rw [show (((h, t) :: (q1, q2) :: rest).getLast (by simp)) =
            (((q1, q2) :: rest).getLast (by simp)) from by rw [List.getLast_cons]]
      simp

theorem flattenRuns_chunkRunsAux (rs : List FileLinkCompacted) :
    ∀ (h : FileLinkCompacted) (acc : List FileLinkCompacted),
    flattenRuns (chunkRunsAux rs h acc) = h :: (acc.reverse ++ rs) := by
  induction rs with
  | nil => intro h acc; simp [chunkRunsAux, flattenRuns]
  | cons r rs ih =>
      intro h acc
      unfold chunkRunsAux
      by_cases hk : recKey r = recKey h
      · rw [if_pos hk, ih h (r :: acc)]
        simp
      · rw [if_neg hk]
        show flattenRuns ((h, acc.reverse) :: chunkRunsAux rs r []) = _
        have : flattenRuns ((h, acc.reverse) :: chunkRunsAux rs r []) =
            (h :: acc.reverse) ++ flattenRuns (chunkRunsAux rs r []) := by
          simp [flattenRuns]
        rw [this, ih r []]
        simp

theorem flattenRuns_chunkRuns (l : List FileLinkCompacted) :
    flattenRuns (chunkRuns l) = l := by
  cases l with
  | nil => rfl
  | cons r rs =>
      show flattenRuns (chunkRunsAux rs r []) = r :: rs
      rw [flattenRuns_chunkRunsAux rs r []]
      simp

theorem chunkRunsAux_first (rs : List FileLinkCompacted) :
    ∀ (h : FileLinkCompacted) (acc : List FileLinkCompacted),
    ∃ t rest, chunkRunsAux rs h acc = (h, t) :: rest := by
  induction rs with
  | nil => intro h acc; exact ⟨acc.reverse, [], rfl⟩
  | cons r rs ih =>
      intro h acc
      unfold chunkRunsAux
      by_cases hk : recKey r = recKey h
      · rw [if_pos hk]; exact ih h (r :: acc)
      · rw [if_neg hk]; exact ⟨acc.reverse, chunkRunsAux rs r [], rfl⟩

theorem chunkRunsAux_wf (rs : List FileLinkCompacted) :
    ∀ (h : FileLinkCompacted) (acc : List FileLinkCompacted),
    (∀ r ∈ rs, r.LinkDomain ≠ []) → h.LinkDomain ≠ [] →
    (∀ r ∈ acc, recKey r = recKey h ∧ r.LinkDomain ≠ []) →
    RunsWF (chunkRunsAux rs h acc) := by
  induction rs with
  | nil =>
      intro h acc _ hh hacc
      intro p hp
      simp only [chunkRunsAux, List.mem_singleton] at hp
      subst hp
      exact ⟨hh, fun r hr => hacc r (List.mem_reverse.mp hr)⟩
  | cons r rs ih =>
      intro h acc hrs hh hacc
      unfold chunkRunsAux
      by_cases hk : recKey r = recKey h
      · rw [if_pos hk]
        refine ih h (r :: acc) (fun x hx => hrs x (List.mem_cons_of_mem r hx)) hh ?_
        intro x hx
        rcases List.mem_cons.mp hx with hx | hx
        · rw [hx]; exact ⟨hk, hrs r (List.mem_cons_self r rs)⟩
        · exact hacc x hx
      · rw [if_neg hk]
        intro p hp
        rcases List.mem_cons.mp hp with hp | hp
        · subst hp
          exact ⟨hh, fun x hx => hacc x (List.mem_reverse.mp hx)⟩
        · exact ih r [] (fun x hx => hrs x (List.mem_cons_of_mem r hx))
            (hrs r (List.mem_cons_self r rs)) (by intro x hx; cases hx) p hp

theorem chunkRunsAux_chain (rs : List FileLinkCompacted) :
    ∀ (h : FileLinkCompacted) (acc : List FileLinkCompacted),
    RunsChain (chunkRunsAux rs h acc) := by
  induction rs with
  | nil => intro h acc; simp [chunkRunsAux, RunsChain]
  | cons r rs ih =>
      intro h acc
      unfold chunkRunsAux
      by_cases hk : recKey r = recKey h
      · rw [if_pos hk]; exact ih h (r :: acc)
      · rw [if_neg hk]
        refine List.chain'_cons'.mpr ⟨?_, ih r []⟩
        intro q hq
        obtain ⟨t, rest, heq⟩ := chunkRunsAux_first rs r []
        rw [heq] at hq
        simp only [List.head?_cons, Option.mem_def, Option.some.injEq] at hq
        subst hq
        exact hk

theorem chunkRunsAux_heads (rs : List FileLinkCompacted) :
    ∀ (h : FileLinkCompacted) (acc : List FileLinkCompacted),
    ∀ p ∈ chunkRunsAux rs h acc, p.1 = h ∨ p.1 ∈ rs := by
  induction rs with
  | nil =>
      intro h acc p hp
      simp only [chunkRunsAux, List.mem_singleton] at hp
      subst hp; exact Or.inl rfl
  | cons r rs ih =>
      intro h acc p hp
      unfold chunkRunsAux at hp
      by_cases hk : recKey r = recKey h
      · rw [if_pos hk] at hp
        rcases ih h (r :: acc) p hp with h1 | h1
        · exact Or.inl h1
        · exact Or.inr (List.mem_cons_of_mem r h1)
      · rw [if_neg hk] at hp
        rcases List.mem_cons.mp hp with h1 | h1
        · subst h1; exact Or.inl rfl
        · rcases ih r [] p h1 with h2 | h2
          · exact Or.inr (h2 ▸ List.mem_cons_self r rs)
          · exact Or.inr (List.mem_cons_of_mem r h2)

theorem mergeStep_qty (a r : FileLinkCompacted)
    (hd : r.LinkDomain ≠ []) (hk : recKey r = recKey a) :
    (mergeStep a r).Qty = a.Qty +
      (if ¬(a.NoFollow = 0 ∧ r.NoFollow = 1) ∧
          (r.PagePath ≠ a.PagePath ∨ r.PageRawQuery ≠ a.PageRawQuery)
       then 1 else 0) := by
  have h1 : r.LinkDomain = a.LinkDomain := congrArg (·.1) hk
  have h2 : r.LinkSubDomain = a.LinkSubDomain := congrArg (·.2.1) hk
  have h3 : r.LinkPath = a.LinkPath := congrArg (·.2.2.1) hk
  have h4 : r.LinkRawQuery = a.LinkRawQuery := congrArg (·.2.2.2.1) hk
  have h5 : r.PageHost = a.PageHost := congrArg (·.2.2.2.2) hk
  unfold mergeStep compareRecords
  rw [if_neg hd, if_neg (by simp [h1, h2, h3, h4, h5])]
  dsimp only
  split_ifs <;> simp_all

theorem foldlMerge_qty (rs : List FileLinkCompacted) :
    ∀ a : FileLinkCompacted,
    (∀ r ∈ rs, recKey r = recKey a ∧ r.LinkDomain ≠ []) →
    (rs.foldl mergeStep a).Qty = a.Qty + qtyCount a rs := by
  induction rs with
  | nil => intro a _; simp [qtyCount]
  | cons r rs ih =>
      intro a h
      have hr := h r (List.mem_cons_self r rs)
      have hrest : ∀ r' ∈ rs, recKey r' = recKey (mergeStep a r) ∧ r'.LinkDomain ≠ [] := by
        intro r' hm
        exact ⟨(h r' (List.mem_cons_of_mem r hm)).1.trans (mergeStep_key a r).symm,
               (h r' (List.mem_cons_of_mem r hm)).2⟩
      calc ((r :: rs).foldl mergeStep a).Qty
          = (rs.foldl mergeStep (mergeStep a r)).Qty := rfl
        _ = (mergeStep a r).Qty + qtyCount (mergeStep a r) rs := ih (mergeStep a r) hrest
        _ = a.Qty + qtyCount a (r :: rs) := by
            rw [mergeStep_qty a r hr.2 hr.1]
            show _ = a.Qty + ((if _ then (1 : Int) else 0) + qtyCount (mergeStep a r) rs)
            ring

theorem parseCompactLine_qty (line : Str) (r : FileLinkCompacted)
    (h : parseCompactLine line = some r) : r.Qty = 1 := by
  unfold parseCompactLine at h
  split at h
  · cases h; rfl
  · cases h

/-- Decomposition of the compacting scan: when every parsed input record has
a non-empty link domain, the records written to the compacted output are
exactly the reductions of all maximal same-key runs of the input except the
last one (the final accumulator is never flushed). -/
theorem aggressiveCompacting_eq_runs (lines : List Str)
    (h : ∀ r ∈ lines.filterMap parseCompactLine, r.LinkDomain ≠ []) :
    aggressiveCompacting lines =
      ((chunkRuns (lines.filterMap parseCompactLine)).map reduceRun).dropLast := by
  unfold aggressiveCompacting compactRun
  cases hrec : lines.filterMap parseCompactLine with
  | nil => simp [chunkRuns]
  | cons r0 rs =>
      rw [hrec] at h
      have hdoms : ∀ x ∈ r0 :: rs, x.LinkDomain ≠ [] := h
      obtain ⟨t0, rest, hchunk⟩ := chunkRunsAux_first rs r0 []
      have hwf : RunsWF ((r0, t0) :: rest) := by
        rw [← hchunk]
        exact chunkRunsAux_wf rs r0 []
          (fun x hx => hdoms x (List.mem_cons_of_mem r0 hx))
          (hdoms r0 (List.mem_cons_self r0 rs)) (by intro x hx; cases hx)
      have hchain : RunsChain ((r0, t0) :: rest) := by
        rw [← hchunk]; exact chunkRunsAux_chain rs r0 []
      have hflat : flattenRuns ((r0, t0) :: rest) = r0 :: rs := by
        rw [← hchunk]
        show flattenRuns (chunkRuns (r0 :: rs)) = r0 :: rs
        exact flattenRuns_chunkRuns (r0 :: rs)
      have hne : recKey r0 ≠ recKey emptyFileLinkCompacted := by
        intro hcon
        exact hdoms r0 (List.mem_cons_self r0 rs) (congrArg (·.1) hcon)
      have := compactFold_runs rest r0 t0 emptyFileLinkCompacted [] hwf hchain hne
      rw [hflat] at this
      show ((r0 :: rs).foldl compactStep ([], emptyFileLinkCompacted)).1 = _
      rw [this]
      show [] ++ (if ([] : Str) = [] then [] else _) ++ _ = _
      rw [if_pos rfl]
      show (((r0, t0) :: rest).map reduceRun).dropLast = _
      rw [show chunkRuns (r0 :: rs) = (r0, t0) :: rest from hchunk]

theorem chunkRuns_wf (l : List FileLinkCompacted)
    (hd : ∀ r ∈ l, r.LinkDomain ≠ []) : RunsWF (chunkRuns l) := by
  cases l with
  | nil => intro p hp; cases hp
  | cons r rs =>
      exact chunkRunsAux_wf rs r []
        (fun x hx => hd x (List.mem_cons_of_mem r hx))
        (hd r (List.mem_cons_self r rs)) (by intro x hx; cases hx)

theorem chunkRuns_heads (l : List FileLinkCompacted) :
    ∀ p ∈ chunkRuns l, p.1 ∈ l := by
  cases l with
  | nil => intro p hp; cases hp
  | cons r rs =>
      intro p hp
      rcases chunkRunsAux_heads rs r [] p hp with h1 | h1
      · rw [h1]; exact List.mem_cons_self r rs
      · exact List.mem_cons_of_mem r h1

/-! ## Claims C1, C2, C7, C9 about the compactor -/

/-- A well-formed 14-field input line for the compactor
(`b.com||/x||2|a.com|/||1|hi|0|0|2023-01-01|1.2.3.4`). -/
def compactLineB1 : Str := str "b.com||/x||2|a.com|/||1|hi|0|0|2023-01-01|1.2.3.4"

/-- A second line with the same grouping key as `compactLineB1` but a later
date and another IP. -/
def compactLineB2 : Str := str "b.com||/x||2|a.com|/||1|hi|0|0|2023-12-01|5.6.7.8"

/-- A line whose grouping key differs from `compactLineB1`. -/
def compactLineC : Str := str "c.com||/y||2|a.com|/||1|yo|0|0|2023-06-01|1.2.3.4"

/-- C1: the claim states that after the last input line is consumed the
final non-empty accumulator is emitted, so the final same-key group always
appears in the compacted output.  The code never flushes the accumulator at
end of stream: on this single-line input the accumulator holds the parsed
`b.com` record, yet the output is empty, so the final group of every stream
is silently dropped. -/
theorem C1_final_group_never_flushed :
    aggressiveCompacting [compactLineB1] = [] ∧
    (compactRun [compactLineB1]).2.LinkDomain = str "b.com" := by
  constructor
  · decide
  · decide

/-- C2 counterexample: the grouping key `(b.com, "", /x, "", a.com)` occurs
in both records of this sorted two-line input, yet the compacted output
contains no record at all with that key (the group is the final one of the
stream and is never flushed), refuting "exactly one record with that key". -/
theorem C2_key_with_no_output_record :
    (([compactLineB1, compactLineB2].filterMap parseCompactLine).map recKey) =
      [(str "b.com", str "", str "/x", str "", str "a.com"),
       (str "b.com", str "", str "/x", str "", str "a.com")] ∧
    aggressiveCompacting [compactLineB1, compactLineB2] = [] := by
  constructor
  · decide
  · decide

/-- C2 (amended): for every input whose parsed records carry a non-empty
link domain, the compacted output consists of exactly one record per maximal
same-key run of the input, in order, except the final run, which is never
emitted; each emitted record keeps the key of its run, and its `qty` is one
plus the number of merged records of the run that differed from the current
accumulator in `pagePath` or `pageRawQuery` (records suppressed by the
nofollow-while-dofollow rule merge nothing and never contribute). -/
theorem C2_one_record_per_run (lines : List Str)
    (h : ∀ r ∈ lines.filterMap parseCompactLine, r.LinkDomain ≠ []) :
    aggressiveCompacting lines =
      ((chunkRuns (lines.filterMap parseCompactLine)).map reduceRun).dropLast ∧
    ∀ p ∈ chunkRuns (lines.filterMap parseCompactLine),
      recKey (reduceRun p) = recKey p.1 ∧
      (reduceRun p).Qty = 1 + qtyCount p.1 p.2 := by
  refine ⟨aggressiveCompacting_eq_runs lines h, ?_⟩
  intro p hp
  have hwf := chunkRuns_wf (lines.filterMap parseCompactLine) h p hp
  refine ⟨foldlMerge_key p.2 p.1, ?_⟩
  have hq1 : p.1.Qty = 1 := by
    have hmem : p.1 ∈ lines.filterMap parseCompactLine :=
      chunkRuns_heads (lines.filterMap parseCompactLine) p hp
    obtain ⟨line, _, hline⟩ := List.mem_filterMap.mp hmem
    exact parseCompactLine_qty line p.1 hline
  have := foldlMerge_qty p.2 p.1 hwf.2
  rw [reduceRun, this, hq1]

/-- C2 witness: on a concrete three-line input (two `b.com` records and one
`c.com` record) the hypothesis holds and the amended statement follows. -/
theorem C2_one_record_per_run_witness :
    (∀ r ∈ [compactLineB1, compactLineB2, compactLineC].filterMap parseCompactLine,
        r.LinkDomain ≠ []) ∧
    (aggressiveCompacting [compactLineB1, compactLineB2, compactLineC] =
      ((chunkRuns ([compactLineB1, compactLineB2, compactLineC].filterMap
          parseCompactLine)).map reduceRun).dropLast ∧
     ∀ p ∈ chunkRuns ([compactLineB1, compactLineB2, compactLineC].filterMap
          parseCompactLine),
       recKey (reduceRun p) = recKey p.1 ∧
       (reduceRun p).Qty = 1 + qtyCount p.1 p.2) :=
  ⟨by decide, C2_one_record_per_run [compactLineB1, compactLineB2, compactLineC]
    (by decide)⟩

/-- C7: when the incoming record has the grouping key of the accumulator,
the accumulator is dofollow and the incoming record is nofollow,
`compareRecords` reports nothing to save and returns the accumulator with
every field unchanged - in particular `dateFrom`, `dateTo`, `IP`,
`pagePath`, `pageRawQuery` and `qty` are untouched. -/
theorem C7_nofollow_suppressed_frame (f a : FileLinkCompacted)
    (hd : f.LinkDomain ≠ []) (hk : recKey f = recKey a)
    (ha : a.NoFollow = 0) (hf : f.NoFollow = 1) :
    compareRecords f a = (false, a) := by
  have h1 : f.LinkDomain = a.LinkDomain := congrArg (·.1) hk
  have h2 : f.LinkSubDomain = a.LinkSubDomain := congrArg (·.2.1) hk
  have h3 : f.LinkPath = a.LinkPath := congrArg (·.2.2.1) hk
  have h4 : f.LinkRawQuery = a.LinkRawQuery := congrArg (·.2.2.2.1) hk
  have h5 : f.PageHost = a.PageHost := congrArg (·.2.2.2.2) hk
  unfold compareRecords
  rw [if_neg hd, if_neg (by simp [h1, h2, h3, h4, h5]), if_pos ⟨ha, hf⟩]

/-- The parse of `compactLineB1` (a dofollow accumulator). -/
def c7acc : FileLinkCompacted :=
  { LinkDomain := str "b.com", LinkSubDomain := [], LinkPath := str "/x"
    LinkRawQuery := [], LinkScheme := str "2", PageHost := str "a.com"
    PagePath := str "/", PageRawQuery := [], PageScheme := str "1"
    LinkText := str "hi", NoFollow := 0, NoIndex := 0
    DateFrom := str "2023-01-01", DateTo := str "2023-01-01"
    IP := str "1.2.3.4", Qty := 1 }

/-- A nofollow record with the same grouping key as `c7acc`, a later date, a
different IP and a different page path. -/
def c7inc : FileLinkCompacted :=
  { c7acc with NoFollow := 1, DateFrom := str "2023-12-01"
               DateTo := str "2023-12-01", IP := str "5.6.7.8"
               PagePath := str "/q" }

/-- C7 witness at concrete records. -/
theorem C7_nofollow_suppressed_frame_witness :
    (c7inc.LinkDomain ≠ [] ∧ recKey c7inc = recKey c7acc ∧
      c7acc.NoFollow = 0 ∧ c7inc.NoFollow = 1) ∧
    compareRecords c7inc c7acc = (false, c7acc) :=
  ⟨⟨by decide, by decide, by decide, by decide⟩,
   C7_nofollow_suppressed_frame c7inc c7acc (by decide) (by decide)
     (by decide) (by decide)⟩

/-- C9: merging never touches `noFollow`, so every record the compactor
emits carries the `noFollow` of the first record of its maximal same-key
run: the emitted `noFollow` values are exactly the run heads' values (for
all runs but the never-flushed final one), even when later dofollow records
of a nofollow-headed run are merged into the accumulator. -/
theorem C9_noFollow_from_first_of_run (lines : List Str)
    (h : ∀ r ∈ lines.filterMap parseCompactLine, r.LinkDomain ≠ []) :
    (aggressiveCompacting lines).map (fun r => r.NoFollow) =
      ((chunkRuns (lines.filterMap parseCompactLine)).map
        (fun p => p.1.NoFollow)).dropLast := by
  rw [aggressiveCompacting_eq_runs lines h]
  rw [List.map_dropLast, List.map_map]
  congr 1
  refine List.map_congr_left ?_
  intro p _
  exact foldlMerge_noFollow p.2 p.1

/-! ## Segment coordinator: `importEnded` versus on-disk artifacts (C5).
The filesystem is modelled as the list of existing paths under the data
directory; `compactSegmentData`'s effect on it follows the source: create
`sort_<segID>.txt.gz` (bash sort), run `aggressiveCompacting` (which creates
`compact_<segID>.txt.gz` only when it writes at least one batch), delete the
sort file, then mark the segment `importEnded`.  Deletions under `tmp/` do
not touch the `links/` paths and are omitted. -/

/-- WatSegment, with `importEnded` as presence of the Go `*time.Time`. -/
structure WatSegmentM where
  segment : Str
  segmentID : Nat
  importEnded : Bool
deriving DecidableEq, Repr

/-- The set of paths existing on disk. -/
abbrev FS := List Str

/-- fileutils.FileExists. -/
def fileExists (fs : FS) (p : Str) : Bool := fs.any (fun q => q == p)

/-- Creating a file (file creation is idempotent for existence purposes). -/
def addFile (fs : FS) (p : Str) : FS := p :: fs

/-- os.Remove. -/
def removeFile (fs : FS) (p : Str) : FS := fs.filter (fun q => !(q == p))

/-- `dataDir.LinksDir + "/sort_" + strconv.Itoa(segment.SegmentID) + extensionTxtGz`. -/
def sortPathOf (linksDir : Str) (segID : Nat) : Str :=
  linksDir ++ str "/sort_" ++ natToStr segID ++ str ".txt.gz"

/-- `dataDir.LinksDir + "/compact_" + strconv.Itoa(segment.SegmentID) + extensionTxtGz`. -/
def compactPathOf (linksDir : Str) (segID : Nat) : Str :=
  linksDir ++ str "/compact_" ++ natToStr segID ++ str ".txt.gz"

/-- ValidateSegmentImportEndAtStart - the startup resume reconciliation: a
segment whose `sort_<segID>.txt.gz` exists is marked `importEnded`. -/
def ValidateSegmentImportEndAtStart (fs : FS) (linksDir : Str)
    (segs : List WatSegmentM) : List WatSegmentM :=
  segs.map (fun s =>
    if fileExists fs (sortPathOf linksDir s.segmentID) then
      { s with importEnded := true }
    else s)

/-- compactSegmentData - effect of the per-segment compaction pipeline on
the filesystem and the segment entry.  `sortedLines` is the content the bash
sort pipeline writes into the sort file (the merged, sorted, deduplicated
per-WAT intermediates). -/
def compactSegmentData (fs : FS) (seg : WatSegmentM) (linksDir : Str)
    (sortedLines : List Str) : FS × WatSegmentM :=
  if fileExists fs (sortPathOf linksDir seg.segmentID) then (fs, seg)
  else
    let fs1 := addFile fs (sortPathOf linksDir seg.segmentID)
    let fs2 := if compactCreatesFile sortedLines then
        addFile fs1 (compactPathOf linksDir seg.segmentID) else fs1
    let fs3 := removeFile fs2 (sortPathOf linksDir seg.segmentID)
    (fs3, { seg with importEnded := true })

theorem sortPathOf_ne_compactPathOf (d : Str) (n : Nat) :
    sortPathOf d n ≠ compactPathOf d n := by
  intro h
  unfold sortPathOf compactPathOf at h
  simp only [str, List.append_assoc] at h
  have h2 := List.append_cancel_left h
  simp at h2

theorem fileExists_addFile (fs : FS) (p : Str) :
    fileExists (addFile fs p) p = true := by
  simp [fileExists, addFile]

theorem fileExists_removeFile (fs : FS) (p q : Str) (h : q ≠ p) :
    fileExists (removeFile fs p) q = fileExists fs q := by
  induction fs with
  | nil => rfl
  | cons a fs ih =>
      unfold removeFile at ih ⊢
      rw [List.filter_cons]
      by_cases hap : a = p
      · have hf : (!(a == p)) = false := by simp [hap]
        rw [hf]
        have hq : (a == q) = false := by
          rw [hap]
          exact beq_eq_false_iff_ne.mpr (fun hc => h hc.symm)
        simp only [Bool.false_eq_true, if_false, fileExists, List.any_cons, hq,
          Bool.false_or]
        exact ih
      · have hf : (!(a == p)) = true := by simp [hap]
        rw [hf]
        simp only [if_true, fileExists, List.any_cons]
        unfold fileExists at ih
        rw [ih]

/-- Links directory used in the C5 scenario. -/
def c5dir : Str := str "data/links"

/-- A segment that has not yet been imported in this run. -/
def c5seg : WatSegmentM :=
  { segment := str "crawldata-CC-MAIN-1.2", segmentID := 1, importEnded := false }

/-- Disk state after a crash between the bash sort and the compaction: the
sort file exists, the compacted file does not. -/
def c5fs : FS := [sortPathOf c5dir 1]

/-- C5 counterexample: the claim states that whenever `importEnded` is set -
including by the startup resume reconciliation - the compacted output
`links/compact_<segID>.txt.gz` exists on disk.  On a disk state holding only
`links/sort_1.txt.gz` (left by a run that crashed after sorting but before
compacting), `ValidateSegmentImportEndAtStart` marks the segment
`importEnded` although the compacted file does not exist. -/
theorem C5_resume_marks_ended_without_compact_file :
    (ValidateSegmentImportEndAtStart c5fs c5dir [c5seg]).map
      (fun s => s.importEnded) = [true] ∧
    fileExists c5fs (compactPathOf c5dir 1) = false := by
  constructor
  · decide
  · decide

/-- C5 (amended): when `importEnded` is set by the per-segment pipeline
(`compactSegmentData` on a segment whose sort file did not already exist)
and the compaction stage wrote at least one batch, the compacted output file
exists on disk afterwards; the startup reconciliation instead keys only on
the sort file's existence and gives no such guarantee. -/
theorem C5_pipeline_sets_ended_with_compact_file (fs : FS) (seg : WatSegmentM)
    (linksDir : Str) (sortedLines : List Str)
    (hsort : fileExists fs (sortPathOf linksDir seg.segmentID) = false)
    (hcreate : compactCreatesFile sortedLines = true) :
    (compactSegmentData fs seg linksDir sortedLines).2.importEnded = true ∧
    fileExists (compactSegmentData fs seg linksDir sortedLines).1
      (compactPathOf linksDir seg.segmentID) = true := by
  unfold compactSegmentData
  rw [hsort]
  simp only [Bool.false_eq_true, if_false, hcreate, if_true]
  refine ⟨by trivial, ?_⟩
  rw [fileExists_removeFile _ _ _
    (Ne.symm (sortPathOf_ne_compactPathOf linksDir seg.segmentID))]
  exact fileExists_addFile _ _

/-- C5 witness: running the pipeline on an empty disk with a sorted stream
of two records marks the segment ended and leaves the compacted file. -/
theorem C5_pipeline_sets_ended_with_compact_file_witness :
    (fileExists [] (sortPathOf c5dir c5seg.segmentID) = false ∧
     compactCreatesFile [compactLineB1, compactLineC] = true) ∧
    ((compactSegmentData [] c5seg c5dir [compactLineB1, compactLineC]).2.importEnded = true ∧
     fileExists (compactSegmentData [] c5seg c5dir [compactLineB1, compactLineC]).1
       (compactPathOf c5dir c5seg.segmentID) = true) :=
  ⟨⟨by decide, by decide⟩,
   C5_pipeline_sets_ended_with_compact_file [] c5seg c5dir
     [compactLineB1, compactLineC] (by decide) (by decide)⟩

/-- A nofollow variant of `compactLineB1` (noFollow field = 1). -/
def compactLineB1n : Str := str "b.com||/x||2|a.com|/||1|hi|1|0|2023-01-01|1.2.3.4"

/-- C9 witness: a run headed by a nofollow record followed by a dofollow
record of the same key, then a new key; the emitted record is nofollow. -/
theorem C9_noFollow_from_first_of_run_witness :
    (∀ r ∈ [compactLineB1n, compactLineB2, compactLineC].filterMap parseCompactLine,
        r.LinkDomain ≠ []) ∧
    (aggressiveCompacting [compactLineB1n, compactLineB2, compactLineC]).map
        (fun r => r.NoFollow) =
      ((chunkRuns ([compactLineB1n, compactLineB2, compactLineC].filterMap
          parseCompactLine)).map (fun p => p.1.NoFollow)).dropLast :=
  ⟨by decide, C9_noFollow_from_first_of_run
    [compactLineB1n, compactLineB2, compactLineC] (by decide)⟩

/-! ## URL parsing (model of Go's `net/url.Parse`).
The model follows Go's `parse`: control bytes reject the whole URL, a scheme
is an ASCII letter followed by alphanumerics and `+ - .` before `:`, the
query is cut at the first `?` (kept raw), the fragment at the first `#`,
an authority follows `//` up to the next `/`, userinfo (before the last `@`)
and host bytes are validated as Go does, and a port after the last `:` must
be decimal digits.  Percent-escapes are not modelled: a `%` in host,
userinfo or path rejects the URL (Go would decode valid escapes; the inputs
used below contain none). -/

/-- URL - the components of a parsed URL (Go's `url.URL` restricted to the
fields the repository reads). -/
structure GoURL where
  scheme : Str
  host : Str
  path : Str
  rawQuery : Str
  fragment : Str
deriving DecidableEq, Repr

/-- Go rejects URLs containing ASCII control bytes (`stringContainsCTLByte`). -/
def isCtlChar (c : Char) : Bool := c.toNat < 32 || c.toNat == 127

/-- Bytes Go accepts in a registered-name host (`shouldEscape` with
`encodeHost`): alphanumerics, `-_.~`, the sub-delims and `:[]<>"`; bytes
at or above 0x80 pass unchecked; `%` is rejected (escape sequences are not
modelled). -/
def isHostChar (c : Char) : Bool :=
  c.isAlphanum || c == '-' || c == '_' || c == '.' || c == '~' ||
  c == '!' || c == '$' || c == '&' || c == '\'' || c == '(' || c == ')' ||
  c == '*' || c == '+' || c == ',' || c == ';' || c == '=' || c == ':' ||
  c == '[' || c == ']' || c == '<' || c == '>' || c == '"' || 128 ≤ c.toNat

/-- Characters Go accepts in userinfo (`validUserinfo`), minus `%`. -/
def isUserinfoChar (c : Char) : Bool :=
  c.isAlphanum || c == '-' || c == '.' || c == '_' || c == ':' || c == '~' ||
  c == '!' || c == '$' || c == '&' || c == '\'' || c == '(' || c == ')' ||
  c == '*' || c == '+' || c == ',' || c == ';' || c == '=' || c == '@'

/-- Scheme extraction (`getScheme`): returns `none` for Go's
"missing protocol scheme" error, otherwise the lower-cased scheme (possibly
empty) and the remainder. -/
def getSchemeAux : Str → Str → Str → Option (Str × Str)
  | [], _, orig => some ([], orig)
  | c :: cs, acc, orig =>
      if c == ':' then
        if acc.isEmpty then none
        else some (strToLower acc.reverse, cs)
      else if c.isAlpha then getSchemeAux cs (c :: acc) orig
      else if !acc.isEmpty && (c.isDigit || c == '+' || c == '-' || c == '.') then
        getSchemeAux cs (c :: acc) orig
      else some ([], orig)

/-- Scheme extraction entry point. -/
def getScheme (s : Str) : Option (Str × Str) := getSchemeAux s [] s

/-- Split a string at the last occurrence of `sep`. -/
def lastSplit (sep : Char) (s : Str) : Option (Str × Str) :=
  match splitFirst sep s.reverse with
  | (_, none) => none
  | (revAfter, some revBefore) => some (revBefore.reverse, revAfter.reverse)

/-- Go's `validOptionalPort` applied to the part after the last `:` of a
host (bracketed IPv6 hosts skip the check). -/
def hostPortOk (host : Str) : Bool :=
  if strStarts host (str "[") then true
  else
    match lastSplit ':' host with
    | none => true
    | some (_, port) => port.all isDigitChar

/-- Go's `parseHost` (without escape handling): validates the optional port
and every host byte. -/
def parseHostModel (host : Str) : Option Str :=
  if hostPortOk host && host.all isHostChar then some host else none

/-- Go's `parseAuthority`: userinfo before the last `@` is validated, the
rest is the host. -/
def parseAuthorityModel (authority : Str) : Option Str :=
  match lastSplit '@' authority with
  | none => parseHostModel authority
  | some (userinfo, hostPart) =>
      if userinfo.all isUserinfoChar then parseHostModel hostPart else none

/-- Go's `url.setPath` without escape handling: a `%` rejects. -/
def goSetPath (p : Str) : Option Str :=
  if strHasChar p '%' then none else some p

/-- Whether the first path segment contains a colon (scheme-less relative
URLs with such a segment are a Go parse error). -/
def firstSegmentHasColon (rest : Str) : Bool :=
  strHasChar (rest.takeWhile (fun c => !(c == '/'))) ':'

/-- Model of Go's `url.Parse` returning the components the repository uses. -/
def goUrlParse (s : Str) : Option GoURL :=
  let fragSplit := splitFirst '#' s
  let beforeFrag := fragSplit.1
  let frag := (fragSplit.2).getD []
  if beforeFrag.any isCtlChar then none
  else
    match getScheme beforeFrag with
    | none => none
    | some (scheme, rest0) =>
      let qSplit := splitFirst '?' rest0
      let rest1 := qSplit.1
      let query := (qSplit.2).getD []
      if !strStarts rest1 (str "/") then
        if scheme ≠ [] then
          some { scheme := scheme, host := [], path := [], rawQuery := query,
                 fragment := frag }
        else if firstSegmentHasColon rest1 then none
        else
          match goSetPath rest1 with
          | none => none
          | some p => some { scheme := scheme, host := [], path := p,
                             rawQuery := query, fragment := frag }
      else
        if strStarts rest1 (str "//") &&
            (scheme ≠ [] || !strStarts rest1 (str "///")) then
          let after := rest1.drop 2
          let authority := after.takeWhile (fun c => !(c == '/'))
          let pathRest := after.dropWhile (fun c => !(c == '/'))
          match parseAuthorityModel authority with
          | none => none
          | some host =>
              match goSetPath pathRest with
              | none => none
              | some p => some { scheme := scheme, host := host, path := p,
                                 rawQuery := query, fragment := frag }
        else
          match goSetPath rest1 with
          | none => none
          | some p => some { scheme := scheme, host := [], path := p,
                             rawQuery := query, fragment := frag }

/-! ## Domain resolution, configuration tables and record quality -/

/-- Model of the library call `publicsuffix.EffectiveTLDPlusOne` for hosts
whose public suffix is their final label (generic TLDs): the last two
dot-separated labels; `none` (the Go error) when the host has fewer than two
labels or an empty label. -/
def effectiveTLDPlusOne (host : Str) : Option Str :=
  let labels := splitAll '.' host
  if labels.length < 2 then none
  else if labels.any (fun l => l.isEmpty) then none
  else some (joinSep '.' (labels.drop (labels.length - 2)))

/-- Modelled from the spec: `config.IgnoreDomains`, the exact-host denylist
of domains whose links are dropped (the `pkg/config` source is not in the
repository snapshot; representative entries). -/
def IgnoreDomains : List Str := [str "facebook.com", str "google.com"]

/-- Modelled from the spec: `config.FileExtensions`, the path-extension
denylist (images, binaries, archives; representative entries). -/
def FileExtensions : List Str :=
  [str ".jpg", str ".jpeg", str ".png", str ".gif", str ".pdf", str ".zip"]

/-- Modelled from the spec: `config.IgnoreTLD`, the domain-suffix denylist
(".cn family"; representative entry). -/
def IgnoreTLD : List Str := [str ".cn"]

/-- Modelled from the spec: `config.IgnoreQuery`, the query-prefix denylist
(tracking parameters; representative entries). -/
def IgnoreQuery : List Str := [str "utm_", str "lang=", str "ref="]

/-- ignoreTLD - ignore Top Level Domains. -/
def ignoreTLD (domain : Str) : Bool :=
  IgnoreTLD.any (fun ext => strEnds (strToLower domain) ext)

/-- ignoreQuery - ignore query starting with a denylisted prefix. -/
def ignoreQuery (query : Str) : Bool :=
  IgnoreQuery.any (fun ext => strStarts query ext)

/-- isIgnoredDomain - ignore certain domains in links (map lookup on the
lower-cased domain). -/
def isIgnoredDomain (domain : Str) : Bool :=
  IgnoreDomains.any (fun d => d == strToLower domain)

/-- Go's `filepath.Ext`: the suffix of the final path element starting at
its last dot (`extAux` scans the reversed path). -/
def filepathExtAux : Str → Str → Str
  | [], _ => []
  | c :: cs, acc =>
      if c == '/' then []
      else if c == '.' then '.' :: acc
      else filepathExtAux cs (c :: acc)

/-- Go's `filepath.Ext`. -/
def filepathExt (p : Str) : Str := filepathExtAux p.reverse []

/-- isIgnoredExtension - ignore certain extensions in links. -/
def isIgnoredExtension (path : Str) : Bool :=
  FileExtensions.any (fun e => e == strToLower (filepathExt path))

/-- One octet of the precompiled IPv4 regex
`25[0-5]|2[0-4]\d|1\d\d|[1-9]\d|\d`. -/
def validOctet (s : Str) : Bool :=
  match s with
  | [a] => isDigitChar a
  | [a, b] => ('1' ≤ a && a ≤ '9') && isDigitChar b
  | [a, b, c] =>
      (a == '1' && isDigitChar b && isDigitChar c) ||
      (a == '2' && '0' ≤ b && b ≤ '4' && isDigitChar c) ||
      (a == '2' && b == '5' && '0' ≤ c && c ≤ '5')
  | _ => false

/-- The anchored IPv4 dotted-quad regex `ipRegex` of the parser. -/
def ipRegexMatch (host : Str) : Bool :=
  match splitAll '.' host with
  | [a, b, c, d] => validOctet a && validOctet b && validOctet c && validOctet d
  | _ => false

/-- validateHost - validate host for strange characters, IPv4 hosts and
hosts without a dot. -/
def validateHost (host : Str) : Bool :=
  if strHasChar host '%' || strHasChar host '[' || strHasChar host ']' ||
      strHasChar host '=' || strHasChar host '\'' || strHasChar host ':' ||
      strHasChar host '*' || strHasChar host '(' || strHasChar host ')' ||
      strHasChar host '<' || strHasChar host '>' || strHasChar host '&' ||
      strHasChar host '!' || strHasChar host '+' ||
      strHasChar host (Char.ofNat 96) || strHasChar host ',' ||
      strHasChar host '}' || strHasChar host '{' || strHasChar host '$' ||
      strHasChar host '"' || strHasChar host ';' then false
  else if ipRegexMatch host then false
  else if !strHasChar host '.' then false
  else true

/-- URLRecord after a successful `buildURLRecord`: in Go all pointer fields
of the record are populated at that point, so they are plain strings here. -/
structure BuiltURL where
  url : Str
  scheme : Str
  host : Str
  path : Str
  rawQuery : Str
  fragment : Str
  domain : Str
  subDomain : Str
  text : Str
deriving DecidableEq, Repr

/-- setScheme - set scheme to 0, 1 or 2 depending on http, https or other. -/
def setScheme (scheme : Str) : Str :=
  if scheme = str "https" then str "2"
  else if scheme = str "http" then str "1"
  else str "0"

/-- genSubdomain - generate subdomain from host and domain. -/
def genSubdomain (host domain : Str) : Str :=
  if host = domain then [] else strTrimSuffix host ('.' :: domain)

/-- buildURLRecord - build url record from source url, check domain, path,
query, etc.  The Go function mutates an out-parameter and returns a bool;
here it returns the fully populated record on success.  The process-wide
domain cache only memoizes `publicsuffix.EffectiveTLDPlusOne` and is not
modelled. -/
def buildURLRecord (text : Option Str) (sourceURL : Str) : Option BuiltURL :=
  if strHasChar sourceURL '\n' then none
  else
    match goUrlParse sourceURL with
    | none => none
    | some u =>
      if strHasChar u.path '\n' then none
      else if strHasChar u.path '|' then none
      else
        let text1 := text.getD []
        let scheme := setScheme u.scheme
        let host := strToLower (strTrimSpace u.host)
        let path := if u.path = [] then str "/" else u.path
        let rawQuery := if ignoreQuery u.rawQuery then [] else u.rawQuery
        match effectiveTLDPlusOne host with
        | none => none
        | some domain =>
            some { url := sourceURL, scheme := scheme, host := host
                   path := path, rawQuery := rawQuery, fragment := u.fragment
                   domain := domain, subDomain := genSubdomain host domain
                   text := text1 }

/-- verifyRecordQuality - verify a built record: no blocked TLD, no broken
host, query at most 200 characters and without `|`.  (The Go nil checks on
`Domain` and `RawQuery` cannot fire on a built record.) -/
def verifyRecordQuality (r : BuiltURL) : Bool :=
  if ignoreTLD r.domain then false
  else if !validateHost r.host then false
  else if 200 < r.rawQuery.length then false
  else if strHasChar r.rawQuery '|' then false
  else true

/-! ## WAT record metadata: dates, robots metas, canonical links -/

/-- Numeric value of a digit character. -/
def charVal (c : Char) : Nat := c.toNat - 48

/-- Gregorian leap-year rule (as Go's `time` package). -/
def isLeapYear (y : Nat) : Bool := y % 4 == 0 && (y % 100 != 0 || y % 400 == 0)

/-- Days in a month. -/
def daysInMonth (m y : Nat) : Nat :=
  if m = 2 then (if isLeapYear y then 29 else 28)
  else if m = 4 ∨ m = 6 ∨ m = 9 ∨ m = 11 then 30
  else 31

/-- Model of `time.Parse("2006-01-02T15:04:05Z", s)` followed by
`Format("2006-01-02")` as `readPageContent` uses it: the input must be
exactly `YYYY-MM-DDTHH:MM:SSZ` with in-range fields, and the result is its
first ten characters. -/
def goParseWatDate (s : Str) : Option Str :=
  match s with
  | [y1, y2, y3, y4, s1, mo1, mo2, s2, d1, d2, t, h1, h2, c1, mi1, mi2, c2,
     se1, se2, z] =>
      if isDigitChar y1 && isDigitChar y2 && isDigitChar y3 && isDigitChar y4 &&
          s1 == '-' && isDigitChar mo1 && isDigitChar mo2 && s2 == '-' &&
          isDigitChar d1 && isDigitChar d2 && t == 'T' &&
          isDigitChar h1 && isDigitChar h2 && c1 == ':' &&
          isDigitChar mi1 && isDigitChar mi2 && c2 == ':' &&
          isDigitChar se1 && isDigitChar se2 && z == 'Z' then
        let year := ((charVal y1 * 10 + charVal y2) * 10 + charVal y3) * 10 + charVal y4
        let month := charVal mo1 * 10 + charVal mo2
        let day := charVal d1 * 10 + charVal d2
        let hour := charVal h1 * 10 + charVal h2
        let minute := charVal mi1 * 10 + charVal mi2
        let second := charVal se1 * 10 + charVal se2
        if 1 ≤ month && month ≤ 12 && 1 ≤ day && day ≤ daysInMonth month year &&
            hour ≤ 23 && minute ≤ 59 && second ≤ 59 then
          some [y1, y2, y3, y4, s1, mo1, mo2, s2, d1, d2]
        else none
      else none
  | _ => none

/-- LinkInfo - one entry of the HTML-Metadata `Links` array as
`jsoniter.Unmarshal` produces it in `parseLinks`. -/
structure LinkInfo where
  path : Str
  url : Str
  text : Str
  rel : Str
deriving DecidableEq, Repr

/-- MetaData - one entry of `Head.Metas` as unmarshalled in
`getNoFollowNoIndex`. -/
structure MetaData where
  name : Str
  content : Str
  property : Str
deriving DecidableEq, Repr

/-- HeadLinkData - one entry of `Head.Link` as unmarshalled in
`checkPageCanonicalLink` (`linkType` is the JSON field `type`). -/
structure HeadLinkData where
  path : Str
  url : Str
  rel : Str
  linkType : Str
deriving DecidableEq, Repr

/-- The `Links` JSON field as the parser observes it through
`gjson.Get(...).String()` followed by `jsoniter.Unmarshal`: `absent` models
a missing field or raw text shorter than 10 bytes, `malformed` an unmarshal
error, `ok` the decoded array. -/
inductive LinksField
  | absent
  | malformed
  | ok (links : List LinkInfo)
deriving DecidableEq, Repr

/-- The `Head.Metas` field (`malformed` = unmarshal error). -/
inductive MetasField
  | malformed
  | ok (metas : List MetaData)
deriving DecidableEq, Repr

/-- The `Head.Link` field (`absent` = empty raw text, `malformed` =
unmarshal error). -/
inductive HeadLinkField
  | absent
  | malformed
  | ok (links : List HeadLinkData)
deriving DecidableEq, Repr

/-- One WAT JSON envelope as the parser observes it: the values of the six
fixed gjson paths it reads.  String-typed values are arbitrary strings
(`gjson` returns `""` for a missing key). -/
structure WatJsonView where
  links : LinksField
  warcIP : Str
  warcDate : Str
  title : Str
  metas : MetasField
  headLink : HeadLinkField
deriving DecidableEq, Repr

/-- getNoFollowNoIndex - (noindex, nofollow) from the robots meta tags. -/
def getNoFollowNoIndex : MetasField → Int × Int
  | .malformed => (0, 0)
  | .ok metas =>
      metas.foldl (fun p m =>
        if m.name = str "robots" then
          (if strHasSub m.content (str "noindex") then 1 else p.1,
           if strHasSub m.content (str "nofollow") then 1 else p.2)
        else p) ((0 : Int), (0 : Int))

/-- Whether one `Head.Link` entry makes `checkPageCanonicalLink` reject the
page: the entry is a canonical with a non-empty URL and the URL fails to
parse, or (for an absolute URL) its host differs from the page host, or the
comparison text - the parsed path for an absolute URL (empty normalized to
`/`), the raw URL otherwise - differs from the page path, or the page has a
non-empty raw query. -/
def canonEntryReject (link : HeadLinkData) (pageHost pagePath : Str)
    (pageRawQuery : Option Str) : Bool :=
  if link.rel = str "canonical" && link.url ≠ [] then
    match goUrlParse link.url with
    | none => true
    | some pu =>
        let isAbs := strStarts link.url (str "http") || strStarts link.url (str "//")
        if isAbs && pu.host ≠ pageHost then true
        else
          let u1 := if isAbs then pu.path else link.url
          let u2 := if u1 = [] then str "/" else u1
          if u2 ≠ pagePath then true
          else
            match pageRawQuery with
            | some q => q ≠ []
            | none => false
  else false

/-- checkPageCanonicalLink - `true` when the page survives the canonical
check: no `Head.Link` data, or a well-formed array in which no canonical
entry rejects (the loop returns `false` at the first rejecting entry). -/
def checkPageCanonicalLink (headLink : HeadLinkField) (pageHost pagePath : Str)
    (pageRawQuery : Option Str) : Bool :=
  match headLink with
  | .absent => true
  | .malformed => false
  | .ok links => !links.any (fun l => canonEntryReject l pageHost pagePath pageRawQuery)

/-- verifyContentQuality - reject `noindex` pages and pages failing the
canonical check. -/
def verifyContentQuality (noIndex : Int) (headLink : HeadLinkField)
    (src : BuiltURL) : Bool :=
  if noIndex = 1 then false
  else checkPageCanonicalLink headLink src.host src.path (some src.rawQuery)

/-! ## Link extraction and page assembly (`parseLinks`, `readPageContent`) -/

/-- The loop body of `parseLinks`: processes the links in order, counting
internal and external links and collecting (in reverse) the records to
emit together with their per-link nofollow value. -/
def parseLinksAux (src : BuiltURL) (pageNoFollow : Int) :
    List LinkInfo → List (BuiltURL × Int) → Int → Int →
    List (BuiltURL × Int) × Int × Int
  | [], acc, internal, external => (acc.reverse, internal, external)
  | ld :: rest, acc, internal, external =>
      if ld.path ≠ str "A@/href" then
        parseLinksAux src pageNoFollow rest acc internal external
      else if !(strStarts ld.url (str "http") || strStarts ld.url (str "//")) then
        parseLinksAux src pageNoFollow rest acc (internal + 1) external
      else
        let noFollow := if strStarts ld.rel (str "nofollow") then 1 else pageNoFollow
        match buildURLRecord (some ld.text) ld.url with
        | none => parseLinksAux src pageNoFollow rest acc internal external
        | some u =>
            if u.host = src.host then
              parseLinksAux src pageNoFollow rest acc (internal + 1) external
            else if u.domain = src.domain then
              parseLinksAux src pageNoFollow rest acc internal (external + 1)
            else if !verifyRecordQuality u then
              parseLinksAux src pageNoFollow rest acc internal (external + 1)
            else if isIgnoredExtension u.path then
              parseLinksAux src pageNoFollow rest acc internal external
            else if isIgnoredDomain u.domain then
              parseLinksAux src pageNoFollow rest acc internal (external + 1)
            else
              parseLinksAux src pageNoFollow rest ((u, noFollow) :: acc)
                internal (external + 1)

/-- parseLinks - parse links from the decoded `Links` array; returns the
emitted (record, nofollow) pairs and the internal/external counters. -/
def parseLinks (links : List LinkInfo) (src : BuiltURL) (pageNoFollow : Int) :
    List (BuiltURL × Int) × Int × Int :=
  parseLinksAux src pageNoFollow links [] 0 0

/-- WatPage - the result of `readPageContent`: optional WARC IP and
(reformatted) date, title, robots flags, counters, the source record and
the extracted links. -/
structure WatPageM where
  ip : Option Str
  imported : Option Str
  title : Str
  noIndex : Int
  noFollow : Int
  internalLinks : Int
  externalLinks : Int
  urlRec : BuiltURL
  links : List (BuiltURL × Int)
deriving DecidableEq, Repr

/-- readPageContent - read page content from the JSON view: `none` when the
`Links` data is absent or unmarshals with an error, or when
`verifyContentQuality` rejects the page; otherwise the assembled page with
`ip`/`imported` left empty when the headers are missing or the date does
not parse. -/
def readPageContent (v : WatJsonView) (src : BuiltURL) : Option WatPageM :=
  match v.links with
  | .absent => none
  | .malformed => none
  | .ok ls =>
      let ip : Option Str := if v.warcIP ≠ [] then some v.warcIP else none
      let imported : Option Str := goParseWatDate v.warcDate
      let flags := getNoFollowNoIndex v.metas
      if !verifyContentQuality flags.1 v.headLink src then none
      else
        let parsed := parseLinks ls src flags.2
        some { ip := ip, imported := imported, title := v.title
               noIndex := flags.1, noFollow := flags.2
               internalLinks := parsed.2.1, externalLinks := parsed.2.2
               urlRec := src, links := parsed.1 }

/-! ## The per-WAT-file scan (`ParseWatByLine`) and link-file emission -/

/-- FilePage - a page record as stored in `pageMap`. -/
structure FilePageM where
  host : Str
  path : Str
  rawQuery : Str
  scheme : Str
  title : Str
  ip : Str
  imported : Str
  internalLinks : Int
  externalLinks : Int
  noIndex : Int
deriving DecidableEq, Repr

/-- The zero value of `FilePage` (what a Go map lookup on a missing key
yields). -/
def zeroFilePageM : FilePageM :=
  { host := [], path := [], rawQuery := [], scheme := [], title := [], ip := []
    imported := [], internalLinks := 0, externalLinks := 0, noIndex := 0 }

/-- FileLink - a link record as stored in `linkMap`.  `pageHash` holds the
dedup key of the page; the 64-bit FarmHash of the concatenated fields is
modelled by the concatenation itself (hash collisions of FarmHash proper
are outside the model; equal concatenations collide under any hash). -/
structure FileLinkM where
  linkHost : Str
  linkPath : Str
  linkRawQuery : Str
  linkScheme : Str
  linkText : Str
  noFollow : Int
  noIndex : Int
  imported : Str
  ip : Str
  pageHash : Str
  linkDomain : Str
  linkSubDomain : Str
deriving DecidableEq, Repr

/-- The zero value of `FileLink`. -/
def zeroFileLinkM : FileLinkM :=
  { linkHost := [], linkPath := [], linkRawQuery := [], linkScheme := []
    linkText := [], noFollow := 0, noIndex := 0, imported := [], ip := []
    pageHash := [], linkDomain := [], linkSubDomain := [] }

/-- Go map assignment `m[k] = v`: overwrite the value when the key exists,
append otherwise (iteration order of Go maps is unspecified; insertion
order is the model's deterministic stand-in, and the link file is sorted
before being written anyway). -/
def mapUpsert (m : List (Str × β)) (k : Str) (v : β) : List (Str × β) :=
  if m.any (fun e => e.1 == k) then
    m.map (fun e => if e.1 == k then (k, v) else e)
  else m ++ [(k, v)]

/-- Go map lookup returning the zero value on a missing key. -/
def mapFind (m : List (Str × β)) (k : Str) (z : β) : β :=
  match m.find? (fun e => e.1 == k) with
  | some e => e.2
  | none => z

/-- One line of a WAT file as the scanner classifies it: `raw` is an
arbitrary text line (`WARC-Target-URI` headers and everything else);
`json` is a line starting with `{`, given as the view of the six JSON
paths the parser reads, with `hasHref` the result of
`strings.Contains(line, "href")`. -/
inductive WatLine
  | raw (s : Str)
  | json (hasHref : Bool) (v : WatJsonView)
deriving DecidableEq, Repr

/-- A Go computation that can panic (nil-pointer dereference). -/
inductive GoResult (α : Type)
  | ok (a : α)
  | panicked
deriving DecidableEq, Repr

/-- The scanner state of `ParseWatByLine`: the `validPage` flag, the
current source URL record, and the two in-memory maps. -/
structure ParseState where
  validPage : Bool
  urlRecord : Option BuiltURL
  pageMap : List (Str × FilePageM)
  linkMap : List (Str × FileLinkM)
deriving DecidableEq, Repr

/-- Initial scanner state. -/
def initParseState : ParseState :=
  { validPage := false, urlRecord := none, pageMap := [], linkMap := [] }

/-- Store one page and its links into the maps (the body of the
`len(content.Links) > 0` block, after the derefs of `content.IP` and
`content.Imported` succeeded). -/
def storePage (st : ParseState) (content : WatPageM) (ip imported : Str) :
    ParseState :=
  let src := content.urlRec
  let filePage : FilePageM :=
    { host := src.host, path := src.path, rawQuery := src.rawQuery
      scheme := src.scheme, title := strReplaceChar content.title '|' ' '
      ip := ip, imported := imported, internalLinks := content.internalLinks
      externalLinks := content.externalLinks, noIndex := content.noIndex }
  let pageHash := src.host ++ src.path ++ src.rawQuery
  let pageMap := mapUpsert st.pageMap pageHash filePage
  let linkMap := content.links.foldl (fun m ul =>
    let u := ul.1
    let noFollow : Int := if ul.2 = 1 then 1 else 0
    let fileLink : FileLinkM :=
      { linkHost := u.host, linkPath := u.path, linkRawQuery := u.rawQuery
        linkScheme := u.scheme, linkText := strReplaceChar u.text '|' ' '
        noFollow := noFollow, noIndex := content.noIndex, imported := imported
        ip := ip, pageHash := pageHash, linkDomain := u.domain
        linkSubDomain := u.subDomain }
    let linkHash := u.host ++ u.path ++ u.rawQuery ++ src.host ++ src.path ++
      src.rawQuery
    mapUpsert m linkHash fileLink) st.linkMap
  { st with validPage := false, pageMap := pageMap, linkMap := linkMap }

/-- Processing of one scanned line by `ParseWatByLine`: `WARC-Target-URI`
header lines (re)build the source record and set `validPage`; JSON lines
containing `href` are read as pages while `validPage` holds; dereferencing
the IP or date of a page with links but without those headers panics. -/
def parseWatLineStep (st : ParseState) (l : WatLine) : GoResult ParseState :=
  match l with
  | .raw s =>
      if strStarts s (str "WARC-Target-URI: http") then
        let sourceURL := strTrimSpace (s.drop 17)
        match buildURLRecord none sourceURL with
        | none => .ok { st with validPage := false, urlRecord := none }
        | some u =>
            if !verifyRecordQuality u then
              .ok { st with validPage := false, urlRecord := some u }
            else .ok { st with validPage := true, urlRecord := some u }
      else .ok st
  | .json hasHref v =>
      if st.validPage && hasHref then
        match st.urlRecord with
        | none => .ok { st with validPage := false }
        | some src =>
            match readPageContent v src with
            | none => .ok { st with validPage := false }
            | some content =>
                if content.links.length ≠ 0 then
                  match content.ip with
                  | none => .panicked
                  | some ip =>
                      match content.imported with
                      | none => .panicked
                      | some imported =>
                          .ok (storePage { st with validPage := false }
                                content ip imported)
                else .ok { st with validPage := false }
      else .ok st

/-- The scan loop: a panic aborts the run. -/
def parseWatLines : List WatLine → ParseState → GoResult ParseState
  | [], st => .ok st
  | l :: ls, st =>
      match parseWatLineStep st l with
      | .panicked => .panicked
      | .ok st' => parseWatLines ls st'

/-- ParseWatByLine - scan the WAT lines and return the link and page maps
that the emission step writes out (`.panicked` models the Go runtime panic
aborting the process before anything is written). -/
def ParseWatByLine (lines : List WatLine) :
    GoResult (List (Str × FileLinkM) × List (Str × FilePageM)) :=
  match parseWatLines lines initParseState with
  | .panicked => .panicked
  | .ok st => .ok (st.linkMap, st.pageMap)

/-! ## Order theory of `strLt` and the link-file sort -/

theorem charEqOfToNatEq (c d : Char) (h : c.toNat = d.toNat) : c = d :=
  Char.eq_of_val_eq (UInt32.toNat.inj h)

theorem strLt_irrefl (a : Str) : strLt a a = false := by
  induction a with
  | nil => rfl
  | cons c cs ih => simp [strLt, ih]

theorem strLt_asymm (a : Str) : ∀ b, strLt a b = true → strLt b a = false := by
  induction a with
  | nil =>
      intro b h
      cases b with
      | nil => simp [strLt] at h
      | cons d ds => simp [strLt]
  | cons c cs ih =>
      intro b h
      cases b with
      | nil => simp [strLt] at h
      | cons d ds =>
          unfold strLt at h ⊢
          by_cases h1 : c.toNat < d.toNat
          · rw [if_neg (by omega), if_pos h1]
          · by_cases h2 : d.toNat < c.toNat
            · rw [if_neg h1, if_pos h2] at h
              exact absurd h (by simp)
            · rw [if_neg h1, if_neg h2] at h
              rw [if_neg h2, if_neg h1]
              exact ih ds h

theorem strLt_trans (a : Str) : ∀ b c, strLt a b = true → strLt b c = true →
    strLt a c = true := by
  induction a with
  | nil =>
      intro b c hab hbc
      cases b with
      | nil => simp [strLt] at hab
      | cons d ds =>
          cases c with
          | nil => simp [strLt] at hbc
          | cons e es => simp [strLt]
  | cons x xs ih =>
      intro b c hab hbc
      cases b with
      | nil => simp [strLt] at hab
      | cons y ys =>
          cases c with
          | nil => simp [strLt] at hbc
          | cons z zs =>
              unfold strLt at hab hbc ⊢
              by_cases h1 : x.toNat < y.toNat
              · by_cases h2 : y.toNat < z.toNat
                · rw [if_pos (by omega)]
                · by_cases h3 : z.toNat < y.toNat
                  · rw [if_neg h2, if_pos h3] at hbc
                    exact absurd hbc (by simp)
                  · have : y.toNat = z.toNat := by omega
                    rw [if_pos (by omega)]
              · by_cases h2 : y.toNat < x.toNat
                · rw [if_neg h1, if_pos h2] at hab
                  exact absurd hab (by simp)
                · rw [if_neg h1, if_neg h2] at hab
                  by_cases h3 : y.toNat < z.toNat
                  · rw [if_pos (by omega)]
                  · by_cases h4 : z.toNat < y.toNat
                    · rw [if_neg h3, if_pos h4] at hbc
                      exact absurd hbc (by simp)
                    · rw [if_neg h3, if_neg h4] at hbc
                      rw [if_neg (by omega), if_neg (by omega)]
                      exact ih ys zs hab hbc

theorem strLt_conn (a : Str) : ∀ b, strLt a b = false → strLt b a = false →
    a = b := by
  induction a with
  | nil =>
      intro b hab _
      cases b with
      | nil => rfl
      | cons d ds => simp [strLt] at hab
  | cons c cs ih =>
      intro b hab hba
      cases b with
      | nil => simp [strLt] at hba
      | cons d ds =>
          unfold strLt at hab hba
          by_cases h1 : c.toNat < d.toNat
          · rw [if_pos h1] at hab
            exact absurd hab (by simp)
          · by_cases h2 : d.toNat < c.toNat
            · rw [if_pos h2] at hba
              exact absurd hba (by simp)
            · rw [if_neg h1, if_neg h2] at hab
              rw [if_neg h2, if_neg h1] at hba
              have hc : c = d := charEqOfToNatEq c d (by omega)
              rw [hc, ih ds hab hba]

/-- SortFileLinkByFields - structure used to sort links. -/
structure SortFileLinkByFields where
  key : Str
  domain : Str
  subdomain : Str
  path : Str
deriving DecidableEq, Repr

/-- The `less` closure passed to `sort.Slice` in `sortFileLink`. -/
def sortLinkLess (a b : SortFileLinkByFields) : Bool :=
  if a.domain = b.domain then
    if a.subdomain = b.subdomain then strLt a.path b.path
    else strLt a.subdomain b.subdomain
  else strLt a.domain b.domain

/-- The non-strict order induced by `sortLinkLess`; a slice is sorted for
`sort.Slice` exactly when adjacent elements satisfy it. -/
def sortLinkLE (a b : SortFileLinkByFields) : Prop := sortLinkLess b a = false

instance : DecidableRel sortLinkLE := fun a b => by
  unfold sortLinkLE; infer_instance

theorem sortLinkLess_irrefl (a : SortFileLinkByFields) :
    sortLinkLess a a = false := by
  simp [sortLinkLess, strLt_irrefl]

theorem sortLinkLess_trans (a b c : SortFileLinkByFields)
    (hab : sortLinkLess a b = true) (hbc : sortLinkLess b c = true) :
    sortLinkLess a c = true := by
  unfold sortLinkLess at hab hbc ⊢
  by_cases h1 : a.domain = b.domain
  · by_cases h2 : b.domain = c.domain
    · rw [if_pos h1] at hab
      rw [if_pos h2] at hbc
      rw [if_pos (h1.trans h2)]
      by_cases h3 : a.subdomain = b.subdomain
      · by_cases h4 : b.subdomain = c.subdomain
        · rw [if_pos h3] at hab
          rw [if_pos h4] at hbc
          rw [if_pos (h3.trans h4)]
          exact strLt_trans _ _ _ hab hbc
        · rw [if_pos h3] at hab
          rw [if_neg h4] at hbc
          rw [if_neg (h3 ▸ h4)]
          exact h3 ▸ hbc
      · by_cases h4 : b.subdomain = c.subdomain
        · rw [if_neg h3] at hab
          rw [if_neg (fun hc => h3 (hc.trans h4.symm))]
          exact h4 ▸ hab
        · rw [if_neg h3] at hab
          rw [if_neg h4] at hbc
          by_cases h5 : a.subdomain = c.subdomain
          · exfalso
            have := strLt_trans _ _ _ hab hbc
            rw [h5] at this
            rw [strLt_irrefl] at this
            exact absurd this (by simp)
          · rw [if_neg h5]
            exact strLt_trans _ _ _ hab hbc
    · rw [if_neg h2] at hbc
      rw [if_neg (fun hc => h2 (h1.symm.trans hc))]
      exact h1 ▸ hbc
  · by_cases h2 : b.domain = c.domain
    · rw [if_neg h1] at hab
      rw [if_neg (fun hc => h1 (hc.trans h2.symm))]
      exact h2 ▸ hab
    · rw [if_neg h1] at hab
      rw [if_neg h2] at hbc
      by_cases h3 : a.domain = c.domain
      · exfalso
        have := strLt_trans _ _ _ hab hbc
        rw [h3] at this
        rw [strLt_irrefl] at this
        exact absurd this (by simp)
      · rw [if_neg h3]
        exact strLt_trans _ _ _ hab hbc

instance : IsTotal SortFileLinkByFields sortLinkLE where
  total a b := by
    unfold sortLinkLE
    by_cases h : sortLinkLess b a = true
    · right
      by_cases h2 : sortLinkLess a b = true
      · exfalso
        have := sortLinkLess_trans a b a h2 h
        rw [sortLinkLess_irrefl] at this
        exact absurd this (by simp)
      · simpa using h2
    · left
      simpa using h

instance : IsTrans SortFileLinkByFields sortLinkLE where
  trans a b c hab hbc := by
    unfold sortLinkLE at hab hbc ⊢
    by_cases h : sortLinkLess c a = true
    · exfalso
      by_cases h2 : sortLinkLess a b = true
      · have := sortLinkLess_trans c a b h h2
        rw [hbc] at this
        exact absurd this (by simp)
      · have hdom : a.domain = b.domain ∧ a.subdomain = b.subdomain ∧
            a.path = b.path := by
          unfold sortLinkLess at hab h2
          by_cases hd : a.domain = b.domain
          · rw [if_pos hd] at h2
            rw [if_pos hd.symm] at hab
            by_cases hs : a.subdomain = b.subdomain
            · rw [if_pos hs] at h2
              rw [if_pos hs.symm] at hab
              exact ⟨hd, hs, strLt_conn _ _ (by simpa using h2) hab⟩
            · rw [if_neg hs] at h2
              rw [if_neg (fun hc => hs hc.symm)] at hab
              exact absurd (strLt_conn _ _ (by simpa using h2) hab) hs
          · rw [if_neg hd] at h2
            rw [if_neg (fun hc => hd hc.symm)] at hab
            exact absurd (strLt_conn _ _ (by simpa using h2) hab) hd
        have : sortLinkLess c a = sortLinkLess c b := by
          unfold sortLinkLess
          rw [hdom.1, hdom.2.1, hdom.2.2]
        rw [this, hbc] at h
        exact absurd h (by simp)
    · simpa using h

/-- sortFileLink - sort the link map entries by (domain, subdomain, path).
Go's `sort.Slice` is an unstable comparison sort over the randomly-ordered
map iteration; any order consistent with the comparator can result, and the
model picks insertion sort over the deterministic entry order. -/
def sortFileLink (linkMap : List (Str × FileLinkM)) : List SortFileLinkByFields :=
  List.insertionSort sortLinkLE
    (linkMap.map (fun e =>
      { key := e.1, domain := e.2.linkDomain, subdomain := e.2.linkSubDomain
        path := e.2.linkPath }))

/-- The 14 fields of one emitted link-file line, in emission order. -/
def linkFields (content : FileLinkM) (page : FilePageM) : List Str :=
  [content.linkDomain, content.linkSubDomain, content.linkPath,
   content.linkRawQuery, content.linkScheme, page.host, page.path,
   page.rawQuery, page.scheme, content.linkText, intToStr content.noFollow,
   intToStr page.noIndex, page.imported, page.ip]

/-- saveLinkFile - the link-file lines (without the trailing newline each
`Sprintf` appends): one pipe-joined line per sorted entry, fields taken
from the link record and its page record. -/
def saveLinkFile (linkMap : List (Str × FileLinkM))
    (pageMap : List (Str × FilePageM)) : List Str :=
  (sortFileLink linkMap).map (fun item =>
    let content := mapFind linkMap item.key zeroFileLinkM
    let page := mapFind pageMap content.pageHash zeroFilePageM
    joinSep '|' (linkFields content page))

/-- The sort triples of the emitted lines, in emission order. -/
def emittedTriples (linkMap : List (Str × FileLinkM)) : List (Str × Str × Str) :=
  (sortFileLink linkMap).map (fun item => (item.domain, item.subdomain, item.path))

theorem sortFileLink_sorted (linkMap : List (Str × FileLinkM)) :
    List.Sorted sortLinkLE (sortFileLink linkMap) :=
  List.sorted_insertionSort sortLinkLE _

theorem strLt_false_cases (a b : Str) (h : strLt b a = false) :
    strLt a b = true ∨ a = b := by
  by_cases h2 : strLt a b = true
  · exact Or.inl h2
  · exact Or.inr (strLt_conn a b (by simpa using h2) h)

/-- Ascending lexicographic order on (linkDomain, linkSubdomain, linkPath)
triples, components compared in that order by string comparison - the order
the claim about the link file states. -/
def tripleLE (a b : Str × Str × Str) : Prop :=
  strLt a.1 b.1 = true ∨
    (a.1 = b.1 ∧ (strLt a.2.1 b.2.1 = true ∨
      (a.2.1 = b.2.1 ∧ (strLt a.2.2 b.2.2 = true ∨ a.2.2 = b.2.2))))

theorem sortLinkLE_tripleLE (a b : SortFileLinkByFields) (h : sortLinkLE a b) :
    tripleLE (a.domain, a.subdomain, a.path) (b.domain, b.subdomain, b.path) := by
  unfold sortLinkLE sortLinkLess at h
  by_cases h1 : b.domain = a.domain
  · rw [if_pos h1] at h
    by_cases h2 : b.subdomain = a.subdomain
    · rw [if_pos h2] at h
      rcases strLt_false_cases a.path b.path h with h3 | h3
      · exact Or.inr ⟨h1.symm, Or.inr ⟨h2.symm, Or.inl h3⟩⟩
      · exact Or.inr ⟨h1.symm, Or.inr ⟨h2.symm, Or.inr h3⟩⟩
    · rw [if_neg h2] at h
      rcases strLt_false_cases a.subdomain b.subdomain h with h3 | h3
      · exact Or.inr ⟨h1.symm, Or.inl h3⟩
      · exact absurd h3.symm h2
  · rw [if_neg h1] at h
    rcases strLt_false_cases a.domain b.domain h with h3 | h3
    · exact Or.inl h3
    · exact absurd h3.symm h1

/-- C8: for every WAT input whose scan completes, the lines of the emitted
link intermediate are in ascending order of the triple
(linkDomain, linkSubdomain, linkPath), each component compared by
lexicographic string comparison, in that order: the sequence of triples of
the emitted lines is sorted under `tripleLE`. -/
theorem C8_link_file_sorted (lines : List WatLine)
    (lm : List (Str × FileLinkM)) (pm : List (Str × FilePageM))
    (_h : ParseWatByLine lines = .ok (lm, pm)) :
    List.Sorted tripleLE (emittedTriples lm) := by
  unfold emittedTriples
  have hs := sortFileLink_sorted lm
  exact List.Pairwise.map _ (fun a b hab => sortLinkLE_tripleLE a b hab) hs

/-! ## Claims C3 and C10 about the WAT parser -/

/-- A valid `WARC-Target-URI` header line for page `http://a.com/`. -/
def watURIline : WatLine := WatLine.raw (str "WARC-Target-URI: http://a.com/")

/-- An external A-link to `https://b.com/x` with anchor text `hi`. -/
def linkB : LinkInfo :=
  { path := str "A@/href", url := str "https://b.com/x", text := str "hi"
    rel := [] }

/-- An external A-link to `https://c.com/y` with anchor text `yo`. -/
def linkC : LinkInfo :=
  { path := str "A@/href", url := str "https://c.com/y", text := str "yo"
    rel := [] }

/-- A JSON envelope with a non-empty `Links` array but no
`WARC-IP-Address` header (and an otherwise clean page). -/
def c3view : WatJsonView :=
  { links := .ok [linkB], warcIP := [], warcDate := str "2023-01-15T10:20:30Z"
    title := str "T", metas := .ok [], headLink := .absent }

/-- C3: the claim states that a JSON record with a non-empty `Links` array
but no `WARC-IP-Address` (or no parseable `WARC-Date`) is merely skipped
and scanning continues.  In the code, such a record reaches the
`FilePage{... IP: *content.IP ...}` literal with a nil `content.IP` (set
only when the header is non-empty) and the dereference panics, aborting
`ParseWatByLine` instead of skipping the record. -/
theorem C3_missing_ip_panics :
    ParseWatByLine [watURIline, WatLine.json true c3view] = .panicked := by
  decide

/-- The link map of a completed run (empty for a panicked run). -/
def goResultLinkMap
    (r : GoResult (List (Str × FileLinkM) × List (Str × FilePageM))) :
    List (Str × FileLinkM) :=
  match r with
  | .ok p => p.1
  | .panicked => []

/-- The page map of a completed run. -/
def goResultPageMap
    (r : GoResult (List (Str × FileLinkM) × List (Str × FilePageM))) :
    List (Str × FilePageM) :=
  match r with
  | .ok p => p.2
  | .panicked => []

/-- An A-link to `https://b.com/xy` (path `/xy`, empty query). -/
def linkXY : LinkInfo :=
  { path := str "A@/href", url := str "https://b.com/xy", text := str "first"
    rel := [] }

/-- An A-link to `https://b.com/x?y` (path `/x`, raw query `y`). -/
def linkXqY : LinkInfo :=
  { path := str "A@/href", url := str "https://b.com/x?y", text := str "second"
    rel := [] }

/-- A page carrying both colliding links, `linkXY` first. -/
def c10view : WatJsonView :=
  { links := .ok [linkXY, linkXqY], warcIP := str "1.2.3.4"
    warcDate := str "2023-01-15T10:20:30Z", title := str "T"
    metas := .ok [], headLink := .absent }

/-- The C10 input: one page with the two colliding links. -/
def c10input : List WatLine := [watURIline, WatLine.json true c10view]

/-- C10: the in-file dedup key is the hash of the unseparated concatenation
linkHost+linkPath+linkRawQuery+pageHost+pagePath+pageRawQuery, so the two
distinct links `/xy` (no query) and `/x` with query `y` on page
`http://a.com/` produce the same key `b.com/xya.com/` - their
concatenations coincide, hence so do their hashes - and the link map of the
run retains only the later-processed of the two (`second`); the emitted
intermediate holds exactly that one line. -/
theorem C10_dedup_key_collision :
    linkXY ≠ linkXqY ∧
    str "b.com" ++ str "/xy" ++ str "" ++ str "a.com" ++ str "/" ++ str "" =
      str "b.com" ++ str "/x" ++ str "y" ++ str "a.com" ++ str "/" ++ str "" ∧
    (goResultLinkMap (ParseWatByLine c10input)).map
        (fun e => (e.1, e.2.linkText, e.2.linkPath, e.2.linkRawQuery)) =
      [(str "b.com/xya.com/", str "second", str "/x", str "y")] ∧
    (saveLinkFile (goResultLinkMap (ParseWatByLine c10input))
        (goResultPageMap (ParseWatByLine c10input))).length = 1 := by
  refine ⟨by decide, by decide, by decide, by decide⟩

/-- A page whose links arrive out of sort order (`c.com` before `b.com`). -/
def c8view : WatJsonView :=
  { links := .ok [linkC, linkB], warcIP := str "1.2.3.4"
    warcDate := str "2023-01-15T10:20:30Z", title := str "T"
    metas := .ok [], headLink := .absent }

/-- The C8 witness input. -/
def c8input : List WatLine := [watURIline, WatLine.json true c8view]

/-- Link map of the C8 witness run. -/
def c8lm : List (Str × FileLinkM) := goResultLinkMap (ParseWatByLine c8input)

/-- Page map of the C8 witness run. -/
def c8pm : List (Str × FilePageM) := goResultPageMap (ParseWatByLine c8input)

/-- C8 witness: a concrete completed run whose emitted triples are sorted. -/
theorem C8_link_file_sorted_witness :
    ParseWatByLine c8input = .ok (c8lm, c8pm) ∧
    List.Sorted tripleLE (emittedTriples c8lm) :=
  ⟨by decide, C8_link_file_sorted c8input c8lm c8pm (by decide)⟩

/-! ## Claim C4: the canonical-link gate -/

/-- The claim's rejection condition, stated from the spec's words for
comparison with the code: host differs, or canonical path differs, or the
page has a non-empty raw query while the canonical has none; an empty
canonical path is normalized to `/`; an unparseable canonical rejects. -/
def claimCanonicalReject (link : HeadLinkData) (pageHost pagePath : Str)
    (pageRawQuery : Option Str) : Bool :=
  if link.rel = str "canonical" && link.url ≠ [] then
    match goUrlParse link.url with
    | none => true
    | some pu =>
        let canonPath := if pu.path = [] then str "/" else pu.path
        if pu.host ≠ pageHost then true
        else if canonPath ≠ pagePath then true
        else
          match pageRawQuery with
          | some q => q ≠ [] && pu.rawQuery.isEmpty
          | none => false
  else false

/-- A canonical entry identical to the page URL `http://a.com/p?x=1`. -/
def c4entry : HeadLinkData :=
  { path := [], url := str "http://a.com/p?x=1", rel := str "canonical"
    linkType := [] }

/-- C4 counterexample: for page host `a.com`, path `/p`, raw query `x=1`
and a canonical of exactly the same URL, the claim's condition does not
hold (host and path agree and the canonical has the same query), yet the
code rejects the page: its query check fires for every page with a
non-empty raw query regardless of the canonical's query.  The claimed
"exactly when" characterization is therefore false. -/
theorem C4_canonical_claim_mismatch :
    checkPageCanonicalLink (.ok [c4entry]) (str "a.com") (str "/p")
      (some (str "x=1")) = false ∧
    claimCanonicalReject c4entry (str "a.com") (str "/p")
      (some (str "x=1")) = false := by
  refine ⟨by decide, by decide⟩

/-- The path against which the code compares the page path: for an
absolute canonical (starting `http` or `//`) the parsed path, the raw URL
otherwise; empty is normalized to `/`. -/
def canonComparePath (url : Str) (pu : GoURL) : Str :=
  let u1 := if strStarts url (str "http") || strStarts url (str "//") then
      pu.path else url
  if u1 = [] then str "/" else u1

theorem canonEntryReject_iff (l : HeadLinkData) (ph pp : Str) (pq : Option Str) :
    canonEntryReject l ph pp pq = true ↔
      (l.rel = str "canonical" ∧ l.url ≠ [] ∧
        (match goUrlParse l.url with
         | none => True
         | some pu =>
             ((strStarts l.url (str "http") = true ∨
               strStarts l.url (str "//") = true) ∧ pu.host ≠ ph) ∨
             canonComparePath l.url pu ≠ pp ∨
             (match pq with | some q => q ≠ [] | none => False))) := by
  unfold canonEntryReject canonComparePath
  by_cases hrel : l.rel = str "canonical"
  · by_cases hurl : l.url = []
    · simp [hrel, hurl]
    · simp only [hrel, hurl]
      cases hp : goUrlParse l.url with
      | none => simp [hrel, hurl]
      | some pu =>
          by_cases habs : (strStarts l.url (str "http") ||
              strStarts l.url (str "//")) = true
          · by_cases hhost : pu.host = ph
            · by_cases hpe : pu.path = []
              · by_cases hpath : str "/" = pp
                · cases pq with
                  | none => simp [hrel, hurl, habs, hhost, hpe, hpath]
                  | some q => by_cases hq : q = [] <;>
                      simp [hrel, hurl, habs, hhost, hpe, hpath, hq]
                · cases pq with
                  | none => simp [hrel, hurl, habs, hhost, hpe, hpath]
                  | some q => by_cases hq : q = [] <;>
                      simp [hrel, hurl, habs, hhost, hpe, hpath, hq]
              · by_cases hpath : pu.path = pp
                · cases pq with
                  | none => simp [hrel, hurl, habs, hhost, hpe, hpath]
                  | some q => by_cases hq : q = [] <;>
                      simp [hrel, hurl, habs, hhost, hpe, hpath, hq]
                · cases pq with
                  | none => simp [hrel, hurl, habs, hhost, hpe, hpath]
                  | some q => by_cases hq : q = [] <;>
                      simp [hrel, hurl, habs, hhost, hpe, hpath, hq]
            · have hor : strStarts l.url (str "http") = true ∨
                  strStarts l.url (str "//") = true := by
                rcases Bool.or_eq_true_iff.mp habs with h | h
                · exact Or.inl h
                · exact Or.inr h
              simp [hrel, hurl, habs, hhost, hor]
          · have habs1 : strStarts l.url (str "http") = false := by
              rcases Bool.or_eq_false_iff.mp (by simpa using habs) with ⟨h1, h2⟩
              exact h1
            have habs2 : strStarts l.url (str "//") = false := by
              rcases Bool.or_eq_false_iff.mp (by simpa using habs) with ⟨h1, h2⟩
              exact h2
            by_cases hpath : l.url = pp
            · cases pq with
              | none => simp [hrel, hurl, habs1, habs2, hpath]
              | some q => by_cases hq : q = [] <;>
                  simp [hrel, hurl, habs1, habs2, hpath, hq]
            · cases pq with
              | none => simp [hrel, hurl, habs1, habs2, hpath]
              | some q => by_cases hq : q = [] <;>
                  simp [hrel, hurl, habs1, habs2, hpath, hq]
  · simp [hrel]

/-- C4 (amended): a page with `Head.Link` data is rejected by the canonical
check exactly when some entry is a canonical with a non-empty URL such
that: the URL fails to parse; or the URL is absolute (starts with `http`
or `//`) and its parsed host differs from the page host; or the comparison
path - the parsed path for an absolute URL, the raw URL text for a relative
one, empty normalized to `/` - differs from the page path; or the page's
raw query is non-empty (regardless of the canonical's own query). -/
theorem C4_canonical_reject_exactly (links : List HeadLinkData) (ph pp : Str)
    (pq : Option Str) :
    checkPageCanonicalLink (.ok links) ph pp pq = false ↔
      ∃ l ∈ links,
        l.rel = str "canonical" ∧ l.url ≠ [] ∧
        (match goUrlParse l.url with
         | none => True
         | some pu =>
             ((strStarts l.url (str "http") = true ∨
               strStarts l.url (str "//") = true) ∧ pu.host ≠ ph) ∨
             canonComparePath l.url pu ≠ pp ∨
             (match pq with | some q => q ≠ [] | none => False)) := by
  unfold checkPageCanonicalLink
  simp only [Bool.not_eq_false', List.any_eq_true]
  constructor
  · rintro ⟨l, hl, hrej⟩
    exact ⟨l, hl, (canonEntryReject_iff l ph pp pq).mp hrej⟩
  · rintro ⟨l, hl, hcond⟩
    exact ⟨l, hl, (canonEntryReject_iff l ph pp pq).mpr hcond⟩

/-! ## Claim C6: shape of the emitted link-file lines.
The chain below establishes that every component of an emitted line is free
of `|` and newline (and that the scheme and flag fields take their coded
values), by tracking where each field originates: URL components come from
`goUrlParse` (whose host bytes are validated and whose path/query are
substrings of a control-byte-free input), dates from the fixed-format date
parser, flags from `getNoFollowNoIndex`, and the remaining free-text values
(`WARC-IP-Address`, anchor text) are constrained by the amended
hypotheses. -/

/-- A string with neither `|` nor newline. -/
def noPipeNl (s : Str) : Prop := ∀ c ∈ s, c ≠ '|' ∧ c ≠ '\n'

theorem noPipeNl_nil : noPipeNl [] := by intro c hc; cases hc

theorem strHasChar_false_not_mem (s : Str) (c : Char)
    (h : strHasChar s c = false) : c ∉ s := by
  intro hc
  unfold strHasChar at h
  simp at h
  exact h hc

theorem mem_splitFirst_fst (sep : Char) (s : Str) :
    ∀ c ∈ (splitFirst sep s).1, c ∈ s := by
  induction s with
  | nil => intro c hc; cases hc
  | cons a s ih =>
      intro c hc
      unfold splitFirst at hc
      by_cases ha : a == sep
      · rw [if_pos ha] at hc; cases hc
      · rw [if_neg (by simpa using ha)] at hc
        rcases List.mem_cons.mp hc with h1 | h1
        · rw [h1]; exact List.mem_cons_self a s
        · exact List.mem_cons_of_mem a (ih c h1)

theorem mem_splitFirst_snd (sep : Char) (s : Str) :
    ∀ t, (splitFirst sep s).2 = some t → ∀ c ∈ t, c ∈ s := by
  induction s with
  | nil => intro t ht; cases ht
  | cons a s ih =>
      intro t ht c hc
      unfold splitFirst at ht
      by_cases ha : a == sep
      · rw [if_pos ha] at ht
        cases ht
        exact List.mem_cons_of_mem a hc
      · rw [if_neg (by simpa using ha)] at ht
        exact List.mem_cons_of_mem a (ih t ht c hc)

theorem mem_splitAllAux (sep : Char) (s : Str) :
    ∀ acc l, l ∈ splitAllAux sep s acc → ∀ c ∈ l, c ∈ s ∨ c ∈ acc := by
  induction s with
  | nil =>
      intro acc l hl c hc
      unfold splitAllAux at hl
      rcases List.mem_singleton.mp hl with h1
      rw [h1] at hc
      exact Or.inr (List.mem_reverse.mp hc)
  | cons a s ih =>
      intro acc l hl c hc
      unfold splitAllAux at hl
      by_cases ha : a == sep
      · rw [if_pos ha] at hl
        rcases List.mem_cons.mp hl with h1 | h1
        · rw [h1] at hc
          exact Or.inr (List.mem_reverse.mp hc)
        · rcases ih [] l h1 c hc with h2 | h2
          · exact Or.inl (List.mem_cons_of_mem a h2)
          · cases h2
      · rw [if_neg (by simpa using ha)] at hl
        rcases ih (a :: acc) l hl c hc with h2 | h2
        · exact Or.inl (List.mem_cons_of_mem a h2)
        · rcases List.mem_cons.mp h2 with h3 | h3
          · rw [h3]; exact Or.inl (List.mem_cons_self a s)
          · exact Or.inr h3

theorem mem_splitAll (sep : Char) (s : Str) (l : Str) (hl : l ∈ splitAll sep s) :
    ∀ c ∈ l, c ∈ s := by
  intro c hc
  rcases mem_splitAllAux sep s [] l hl c hc with h | h
  · exact h
  · cases h

theorem mem_joinSep (sep : Char) (fs : List Str) :
    ∀ c ∈ joinSep sep fs, c = sep ∨ ∃ f ∈ fs, c ∈ f := by
  induction fs with
  | nil => intro c hc; cases hc
  | cons f fs ih =>
      intro c hc
      cases fs with
      | nil =>
          exact Or.inr ⟨f, List.mem_singleton.mpr rfl, hc⟩
      | cons g gs =>
          rcases List.mem_append.mp hc with h1 | h1
          · exact Or.inr ⟨f, List.mem_cons_self f _, h1⟩
          · rcases List.mem_cons.mp h1 with h2 | h2
            · exact Or.inl h2
            · rcases ih c h2 with h3 | ⟨f', hf', hc'⟩
              · exact Or.inl h3
              · exact Or.inr ⟨f', List.mem_cons_of_mem f hf', hc'⟩

theorem mem_strTrimSpace (s : Str) : ∀ c ∈ strTrimSpace s, c ∈ s := by
  intro c hc
  unfold strTrimSpace at hc
  have h1 := List.mem_reverse.mp hc
  have h2 := (List.dropWhile_sublist isSpaceChar).mem h1
  have h3 := List.mem_reverse.mp h2
  exact (List.dropWhile_sublist isSpaceChar).mem h3

theorem mem_strTrimSuffix (s suf : Str) : ∀ c ∈ strTrimSuffix s suf, c ∈ s := by
  intro c hc
  unfold strTrimSuffix at hc
  by_cases h : strEnds s suf = true
  · rw [if_pos h] at hc
    exact (List.take_sublist _ s).mem hc
  · rw [if_neg h] at hc
    exact hc

theorem mem_strToLower (s : Str) (c : Char) (hc : c ∈ strToLower s) :
    ∃ d ∈ s, lowerChar d = c := by
  unfold strToLower at hc
  simpa using List.mem_map.mp hc

theorem getSchemeAux_rest_mem (s : Str) :
    ∀ acc orig sch rest, getSchemeAux s acc orig = some (sch, rest) →
    ∀ c ∈ rest, c ∈ s ∨ c ∈ orig := by
  induction s with
  | nil =>
      intro acc orig sch rest h c hc
      unfold getSchemeAux at h
      cases h
      exact Or.inr hc
  | cons a s ih =>
      intro acc orig sch rest h c hc
      unfold getSchemeAux at h
      by_cases ha : a == ':'
      · rw [if_pos ha] at h
        by_cases hacc : acc.isEmpty
        · rw [if_pos hacc] at h; cases h
        · rw [if_neg hacc] at h
          cases h
          exact Or.inl (List.mem_cons_of_mem a hc)
      · rw [if_neg (by simpa using ha)] at h
        by_cases h1 : a.isAlpha
        · rw [if_pos h1] at h
          rcases ih (a :: acc) orig sch rest h c hc with h2 | h2
          · exact Or.inl (List.mem_cons_of_mem a h2)
          · exact Or.inr h2
        · rw [if_neg (by simpa using h1)] at h
          by_cases h2 : (!acc.isEmpty && (a.isDigit || a == '+' || a == '-' || a == '.')) = true
          · rw [if_pos h2] at h
            rcases ih (a :: acc) orig sch rest h c hc with h3 | h3
            · exact Or.inl (List.mem_cons_of_mem a h3)
            · exact Or.inr h3
          · rw [if_neg h2] at h
            cases h
            exact Or.inr hc

theorem getScheme_rest_mem (s sch rest : Str) (h : getScheme s = some (sch, rest)) :
    ∀ c ∈ rest, c ∈ s := by
  intro c hc
  rcases getSchemeAux_rest_mem s [] s sch rest h c hc with h1 | h1
  · exact h1
  · exact h1

theorem parseHostModel_chars (a h : Str) (hp : parseHostModel a = some h) :
    ∀ c ∈ h, isHostChar c = true := by
  unfold parseHostModel at hp
  split at hp
  · cases hp
    rename_i hcond
    intro c hc
    have h2 := (Bool.and_eq_true _ _ |>.mp hcond).2
    exact List.all_eq_true.mp h2 c hc
  · cases hp

theorem parseAuthorityModel_chars (a h : Str) (hp : parseAuthorityModel a = some h) :
    ∀ c ∈ h, isHostChar c = true := by
  unfold parseAuthorityModel at hp
  split at hp
  · exact parseHostModel_chars a h hp
  · split at hp
    · exact parseHostModel_chars _ h hp
    · cases hp

theorem goSetPath_eq (p q : Str) (h : goSetPath p = some q) : q = p := by
  unfold goSetPath at h
  split at h
  · cases h
  · cases h; rfl

theorem anyCtl_false_mem (l : Str) (h : l.any isCtlChar = false) :
    ∀ c ∈ l, isCtlChar c = false := by
  intro c hc
  by_cases h2 : isCtlChar c = true
  · exact absurd (List.any_eq_true.mpr ⟨c, hc, h2⟩) (by simp [h])
  · simpa using h2

theorem goUrlParse_clean (s : Str) (u : GoURL) (h : goUrlParse s = some u) :
    (∀ c ∈ u.host, isHostChar c = true) ∧
    (∀ c ∈ u.path, isCtlChar c = false) ∧
    (∀ c ∈ u.rawQuery, isCtlChar c = false) := by
  unfold goUrlParse at h
  dsimp only at h
  split at h
  · cases h
  · rename_i hctl
    have hctlm : ∀ c ∈ (splitFirst '#' s).1, isCtlChar c = false :=
      anyCtl_false_mem _ (by simpa using hctl)
    split at h
    · cases h
    · rename_i scheme rest0 hsch
      have hrest0 : ∀ c ∈ rest0, isCtlChar c = false := fun c hc =>
        hctlm c (getScheme_rest_mem _ _ _ hsch c hc)
      have hrest1 : ∀ c ∈ (splitFirst '?' rest0).1, isCtlChar c = false :=
        fun c hc => hrest0 c (mem_splitFirst_fst '?' rest0 c hc)
      have hquery : ∀ c ∈ ((splitFirst '?' rest0).2).getD [], isCtlChar c = false := by
        cases hq : (splitFirst '?' rest0).2 with
        | none => intro c hc; cases hc
        | some t =>
            intro c hc
            exact hrest0 c (mem_splitFirst_snd '?' rest0 t hq c (by simpa using hc))
      split at h
      · split at h
        · cases h
          exact ⟨fun c hc => absurd hc (by intro hx; cases hx),
                 fun c hc => absurd hc (by intro hx; cases hx), hquery⟩
        · split at h
          · cases h
          · split at h
            · cases h
            · rename_i p hsp
              cases h
              have := goSetPath_eq _ p hsp
              subst this
              exact ⟨fun c hc => absurd hc (by intro hx; cases hx), hrest1, hquery⟩
      · split at h
        · split at h
          · cases h
          · rename_i host hauth
            split at h
            · cases h
            · rename_i p hsp
              cases h
              have hpm := goSetPath_eq _ p hsp
              subst hpm
              refine ⟨parseAuthorityModel_chars _ _ hauth, ?_, hquery⟩
              intro c hc
              have h1 := (List.dropWhile_sublist _).mem hc
              have h2 := (List.drop_sublist 2 _).mem h1
              exact hrest1 c h2
        · split at h
          · cases h
          · rename_i p hsp
            cases h
            have := goSetPath_eq _ p hsp
            subst this
            exact ⟨fun c hc => absurd hc (by intro hx; cases hx), hrest1, hquery⟩

theorem charToNat_ofNat (n : Nat) (h : n.isValidChar) : (Char.ofNat n).toNat = n := by
  unfold Char.ofNat
  rw [dif_pos h]
  unfold Char.ofNatAux Char.toNat UInt32.toNat
  show (BitVec.ofNatLt n ?pf).toNat = n
  · exact BitVec.toNat_ofNatLt ..

theorem lowerChar_ne (c d : Char) (hd : d.toNat < 97 ∨ 122 < d.toNat)
    (hne : c ≠ d) : lowerChar c ≠ d := by
  unfold lowerChar
  by_cases h : ('A' ≤ c && c ≤ 'Z') = true
  · rw [if_pos h]
    intro hc
    have h1' : 'A' ≤ c := of_decide_eq_true (Bool.and_eq_true _ _ |>.mp h).1
    have h2' : c ≤ 'Z' := of_decide_eq_true (Bool.and_eq_true _ _ |>.mp h).2
    have h1 : 65 ≤ c.toNat := h1'
    have h2 : c.toNat ≤ 90 := h2'
    have hv : (c.toNat + 32).isValidChar := Or.inl (by omega)
    have := congrArg Char.toNat hc
    rw [charToNat_ofNat _ hv] at this
    omega
  · rw [if_neg h]; exact hne

theorem isHostChar_noPipeNl (c : Char) (h : isHostChar c = true) :
    c ≠ '|' ∧ c ≠ '\n' := by
  constructor <;> rintro rfl <;> simp [isHostChar] at h

theorem isCtlChar_false_ne_newline (c : Char) (h : isCtlChar c = false) :
    c ≠ '\n' := by
  rintro rfl
  simp [isCtlChar] at h

theorem effectiveTLDPlusOne_mem (host d : Str)
    (h : effectiveTLDPlusOne host = some d) :
    ∀ c ∈ d, c = '.' ∨ c ∈ host := by
  unfold effectiveTLDPlusOne at h
  dsimp only at h
  split at h
  · cases h
  · split at h
    · cases h
    · cases h
      intro c hc
      rcases mem_joinSep '.' _ c hc with h1 | ⟨l, hl, hcl⟩
      · exact Or.inl h1
      · exact Or.inr (mem_splitAll '.' host l
          ((List.drop_sublist _ _).mem hl) c hcl)

theorem setScheme_cases (s : Str) :
    setScheme s = str "0" ∨ setScheme s = str "1" ∨ setScheme s = str "2" := by
  unfold setScheme
  split_ifs
  · exact Or.inr (Or.inr rfl)
  · exact Or.inr (Or.inl rfl)
  · exact Or.inl rfl

theorem buildURLRecord_clean (txt : Option Str) (url : Str) (b : BuiltURL)
    (h : buildURLRecord txt url = some b) :
    noPipeNl b.host ∧ noPipeNl b.path ∧ (∀ c ∈ b.rawQuery, c ≠ '\n') ∧
    noPipeNl b.domain ∧ noPipeNl b.subDomain ∧
    (b.scheme = str "0" ∨ b.scheme = str "1" ∨ b.scheme = str "2") ∧
    b.text = txt.getD [] := by
  unfold buildURLRecord at h
  split at h
  · cases h
  · split at h
    · cases h
    · rename_i u hu
      split at h
      · cases h
      · split at h
        · cases h
        · rename_i hpnl hppipe
          dsimp only at h
          rcases hdom' : effectiveTLDPlusOne (strToLower (strTrimSpace u.host)) with _ | domain
          · rw [hdom'] at h; cases h
          · rw [hdom'] at h
            have hdom : effectiveTLDPlusOne (strToLower (strTrimSpace u.host)) = some domain := hdom'
            cases h
            obtain ⟨hhost, hpath, hquery⟩ := goUrlParse_clean url u hu
            have hhostl : noPipeNl (strToLower (strTrimSpace u.host)) := by
              intro c hc
              obtain ⟨d, hd, hdc⟩ := mem_strToLower _ c hc
              have hmem := mem_strTrimSpace u.host d hd
              have hh := isHostChar_noPipeNl d (hhost d hmem)
              subst hdc
              exact ⟨lowerChar_ne d '|' (Or.inr (by decide)) hh.1,
                     lowerChar_ne d '\n' (Or.inl (by decide)) hh.2⟩
            refine ⟨hhostl, ?_, ?_, ?_, ?_, setScheme_cases u.scheme, rfl⟩
            · by_cases hpe : u.path = []
              · rw [if_pos hpe]
                intro c hc
                rcases List.mem_singleton.mp hc with rfl
                exact ⟨by decide, by decide⟩
              · rw [if_neg hpe]
                intro c hc
                refine ⟨?_, ?_⟩
                · intro hcp
                  exact absurd hc (hcp ▸ strHasChar_false_not_mem _ _
                    (by simpa using hppipe))
                · intro hcp
                  exact absurd hc (hcp ▸ strHasChar_false_not_mem _ _
                    (by simpa using hpnl))
            · by_cases hq : ignoreQuery u.rawQuery = true
              · rw [if_pos hq]
                intro c hc; cases hc
              · rw [if_neg hq]
                intro c hc
                exact isCtlChar_false_ne_newline c (hquery c hc)
            · intro c hc
              rcases effectiveTLDPlusOne_mem _ _ hdom c hc with h1 | h1
              · rw [h1]; exact ⟨by decide, by decide⟩
              · exact hhostl c h1
            · intro c hc
              dsimp only at hc
              unfold genSubdomain at hc
              by_cases hs : strToLower (strTrimSpace u.host) = domain
              · rw [if_pos hs] at hc; cases hc
              · rw [if_neg hs] at hc
                exact hhostl c (mem_strTrimSuffix _ _ c hc)

theorem verifyRecordQuality_query (r : BuiltURL) (h : verifyRecordQuality r = true) :
    strHasChar r.rawQuery '|' = false := by
  unfold verifyRecordQuality at h
  split at h
  · cases h
  · split at h
    · cases h
    · split at h
      · cases h
      · split at h
        · cases h
        · rename_i h4
          simpa using h4

theorem parseLinksAux_mem (src : BuiltURL) (pnf : Int) (ls : List LinkInfo) :
    ∀ acc internal external,
    ∀ p ∈ (parseLinksAux src pnf ls acc internal external).1,
    p ∈ acc.reverse ∨ ∃ ld ∈ ls, buildURLRecord (some ld.text) ld.url = some p.1 ∧
      verifyRecordQuality p.1 = true := by
  induction ls with
  | nil =>
      intro acc internal external p hp
      exact Or.inl hp
  | cons ld ls ih =>
      intro acc internal external p hp
      unfold parseLinksAux at hp
      split at hp
      · rcases ih acc _ _ p hp with h | ⟨ld', hld', hh⟩
        · exact Or.inl h
        · exact Or.inr ⟨ld', List.mem_cons_of_mem ld hld', hh⟩
      · split at hp
        · rcases ih acc _ _ p hp with h | ⟨ld', hld', hh⟩
          · exact Or.inl h
          · exact Or.inr ⟨ld', List.mem_cons_of_mem ld hld', hh⟩
        · dsimp only at hp
          split at hp
          · rcases ih acc _ _ p hp with h | ⟨ld', hld', hh⟩
            · exact Or.inl h
            · exact Or.inr ⟨ld', List.mem_cons_of_mem ld hld', hh⟩
          · rename_i u hbuild
            split at hp
            · rcases ih acc _ _ p hp with h | ⟨ld', hld', hh⟩
              · exact Or.inl h
              · exact Or.inr ⟨ld', List.mem_cons_of_mem ld hld', hh⟩
            · split at hp
              · rcases ih acc _ _ p hp with h | ⟨ld', hld', hh⟩
                · exact Or.inl h
                · exact Or.inr ⟨ld', List.mem_cons_of_mem ld hld', hh⟩
              · split at hp
                · rcases ih acc _ _ p hp with h | ⟨ld', hld', hh⟩
                  · exact Or.inl h
                  · exact Or.inr ⟨ld', List.mem_cons_of_mem ld hld', hh⟩
                · rename_i hqual
                  split at hp
                  · rcases ih acc _ _ p hp with h | ⟨ld', hld', hh⟩
                    · exact Or.inl h
                    · exact Or.inr ⟨ld', List.mem_cons_of_mem ld hld', hh⟩
                  · split at hp
                    · rcases ih acc _ _ p hp with h | ⟨ld', hld', hh⟩
                      · exact Or.inl h
                      · exact Or.inr ⟨ld', List.mem_cons_of_mem ld hld', hh⟩
                    · rcases ih _ _ _ p hp with h | ⟨ld', hld', hh⟩
                      · rw [List.reverse_cons] at h
                        rcases List.mem_append.mp h with h1 | h1
                        · exact Or.inl h1
                        · rcases List.mem_singleton.mp h1 with rfl
                          exact Or.inr ⟨ld, List.mem_cons_self ld ls,
                            hbuild, by simpa using hqual⟩
                      · exact Or.inr ⟨ld', List.mem_cons_of_mem ld hld', hh⟩

theorem parseLinks_mem (ls : List LinkInfo) (src : BuiltURL) (pnf : Int) :
    ∀ p ∈ (parseLinks ls src pnf).1,
    ∃ ld ∈ ls, buildURLRecord (some ld.text) ld.url = some p.1 ∧
      verifyRecordQuality p.1 = true := by
  intro p hp
  rcases parseLinksAux_mem src pnf ls [] 0 0 p hp with h | h
  · cases h
  · exact h

theorem getNoFollowNoIndex_flags_aux (metas : List MetaData) :
    ∀ p : Int × Int, (p.1 = 0 ∨ p.1 = 1) → (p.2 = 0 ∨ p.2 = 1) →
    ((metas.foldl (fun p m =>
        if m.name = str "robots" then
          (if strHasSub m.content (str "noindex") then 1 else p.1,
           if strHasSub m.content (str "nofollow") then 1 else p.2)
        else p) p).1 = 0 ∨
     (metas.foldl (fun p m =>
        if m.name = str "robots" then
          (if strHasSub m.content (str "noindex") then 1 else p.1,
           if strHasSub m.content (str "nofollow") then 1 else p.2)
        else p) p).1 = 1) ∧
    ((metas.foldl (fun p m =>
        if m.name = str "robots" then
          (if strHasSub m.content (str "noindex") then 1 else p.1,
           if strHasSub m.content (str "nofollow") then 1 else p.2)
        else p) p).2 = 0 ∨
     (metas.foldl (fun p m =>
        if m.name = str "robots" then
          (if strHasSub m.content (str "noindex") then 1 else p.1,
           if strHasSub m.content (str "nofollow") then 1 else p.2)
        else p) p).2 = 1) := by
  induction metas with
  | nil => intro p h1 h2; exact ⟨h1, h2⟩
  | cons m metas ih =>
      intro p h1 h2
      simp only [List.foldl_cons]
      refine ih _ ?_ ?_
      · by_cases hr : m.name = str "robots"
        · rw [if_pos hr]
          dsimp only
          by_cases hn : strHasSub m.content (str "noindex") = true
          · rw [if_pos hn]; exact Or.inr rfl
          · rw [if_neg hn]; exact h1
        · rw [if_neg hr]; exact h1
      · by_cases hr : m.name = str "robots"
        · rw [if_pos hr]
          dsimp only
          by_cases hn : strHasSub m.content (str "nofollow") = true
          · rw [if_pos hn]; exact Or.inr rfl
          · rw [if_neg hn]; exact h2
        · rw [if_neg hr]; exact h2

theorem getNoFollowNoIndex_flags (m : MetasField) :
    ((getNoFollowNoIndex m).1 = 0 ∨ (getNoFollowNoIndex m).1 = 1) ∧
    ((getNoFollowNoIndex m).2 = 0 ∨ (getNoFollowNoIndex m).2 = 1) := by
  cases m with
  | malformed => exact ⟨Or.inl rfl, Or.inl rfl⟩
  | ok metas =>
      exact getNoFollowNoIndex_flags_aux metas (0, 0) (Or.inl rfl) (Or.inl rfl)

theorem isDigitChar_noPipeNl (c : Char) (h : isDigitChar c = true) :
    c ≠ '|' ∧ c ≠ '\n' := by
  constructor <;> rintro rfl <;> simp [isDigitChar] at h

theorem goParseWatDate_clean (s d : Str) (h : goParseWatDate s = some d) :
    noPipeNl d := by
  unfold goParseWatDate at h
  split at h
  · rename_i y1 y2 y3 y4 s1 mo1 mo2 s2 d1 d2 t h1 h2 c1 mi1 mi2 c2 se1 se2 z
    split at h
    · rename_i hfmt
      dsimp only at h
      split at h
      · cases h
        intro c hc
        have hdig : ∀ x : Char, isDigitChar x = true → c = x → c ≠ '|' ∧ c ≠ '\n' := by
          intro x hx he
          rw [he]; exact isDigitChar_noPipeNl x hx
        simp only [Bool.and_eq_true] at hfmt
        obtain ⟨⟨⟨⟨⟨⟨⟨⟨⟨⟨⟨⟨⟨⟨⟨⟨⟨⟨⟨hy1, hy2⟩, hy3⟩, hy4⟩, hs1⟩, hmo1⟩, hmo2⟩,
          hs2⟩, hd1⟩, hd2⟩, ht⟩, hh1⟩, hh2⟩, hc1⟩, hmi1⟩, hmi2⟩, hc2⟩,
          hse1⟩, hse2⟩, hz⟩ := hfmt
        have hdash1 : s1 = '-' := by simpa using hs1
        have hdash2 : s2 = '-' := by simpa using hs2
        simp only [List.mem_cons, List.not_mem_nil, or_false] at hc
        rcases hc with rfl | rfl | rfl | rfl | rfl | rfl | rfl | rfl | rfl | rfl
        · exact hdig _ hy1 rfl
        · exact hdig _ hy2 rfl
        · exact hdig _ hy3 rfl
        · exact hdig _ hy4 rfl
        · rw [hdash1]; exact ⟨by decide, by decide⟩
        · exact hdig _ hmo1 rfl
        · exact hdig _ hmo2 rfl
        · rw [hdash2]; exact ⟨by decide, by decide⟩
        · exact hdig _ hd1 rfl
        · exact hdig _ hd2 rfl
      · cases h
    · cases h
  · cases h

theorem intToStr_zero : intToStr 0 = str "0" := by decide

theorem intToStr_one : intToStr 1 = str "1" := by decide

theorem readPageContent_spec (v : WatJsonView) (src : BuiltURL) (c : WatPageM)
    (h : readPageContent v src = some c) :
    ∃ ls, v.links = .ok ls ∧
      c.ip = (if v.warcIP ≠ [] then some v.warcIP else none) ∧
      c.imported = goParseWatDate v.warcDate ∧
      c.noIndex = (getNoFollowNoIndex v.metas).1 ∧
      c.links = (parseLinks ls src (getNoFollowNoIndex v.metas).2).1 ∧
      c.urlRec = src := by
  unfold readPageContent at h
  split at h
  · cases h
  · cases h
  · rename_i ls hls
    dsimp only at h
    split at h
    · cases h
    · cases h
      exact ⟨ls, hls, rfl, rfl, rfl, rfl, rfl⟩

/-! ## C6: cleanliness of the emitted link-file lines -/

/-- A string is one of the three scheme codes. -/
def scheme3 (s : Str) : Prop := s = str "0" ∨ s = str "1" ∨ s = str "2"

/-- A string is one of the two flag codes. -/
def bin01 (s : Str) : Prop := s = str "0" ∨ s = str "1"

/-- Cleanliness of a stored link record: each of its emitted fields is free
of `|` and newline, the scheme is a code and the nofollow flag is binary. -/
def CleanLink (v : FileLinkM) : Prop :=
  noPipeNl v.linkDomain ∧ noPipeNl v.linkSubDomain ∧ noPipeNl v.linkPath ∧
  noPipeNl v.linkRawQuery ∧ scheme3 v.linkScheme ∧ noPipeNl v.linkText ∧
  (v.noFollow = 0 ∨ v.noFollow = 1)

/-- Cleanliness of a stored page record (its emitted fields). -/
def CleanPage (p : FilePageM) : Prop :=
  noPipeNl p.host ∧ noPipeNl p.path ∧ noPipeNl p.rawQuery ∧
  scheme3 p.scheme ∧ (p.noIndex = 0 ∨ p.noIndex = 1) ∧
  noPipeNl p.imported ∧ noPipeNl p.ip

/-- Cleanliness of a source record as `buildURLRecord` followed by
`verifyRecordQuality` establishes it. -/
def CleanSrc (b : BuiltURL) : Prop :=
  noPipeNl b.host ∧ noPipeNl b.path ∧ noPipeNl b.rawQuery ∧ scheme3 b.scheme

/-- Input-side hypothesis of the amended C6 claim: the WARC-IP-Address
header carries no `|` or newline, and no anchor text carries a newline (the
code stores the IP verbatim and only replaces `|`, not newlines, in anchor
text). -/
def cleanViewB (v : WatJsonView) : Bool :=
  !strHasChar v.warcIP '|' && !strHasChar v.warcIP '\n' &&
    (match v.links with
     | .ok ls => ls.all (fun ld => !strHasChar ld.text '\n')
     | _ => true)

/-- Cleanliness of one scanned line: only JSON views carry data that can
reach the link file unvalidated. -/
def cleanLineB : WatLine → Bool
  | .raw _ => true
  | .json _ v => cleanViewB v

/-- The scan-state invariant: stored link records are clean and their page
hash is a key of the page map, stored page records are clean, and a set
`validPage` flag is backed by a clean source record. -/
def StateClean (st : ParseState) : Prop :=
  (∀ e ∈ st.linkMap, CleanLink e.2 ∧ ∃ p ∈ st.pageMap, p.1 = e.2.pageHash) ∧
  (∀ e ∈ st.pageMap, CleanPage e.2) ∧
  (st.validPage = true → ∃ src, st.urlRecord = some src ∧ CleanSrc src)

theorem mapUpsert_mem (m : List (Str × β)) (k : Str) (v : β) :
    ∀ e ∈ mapUpsert m k v, e = (k, v) ∨ e ∈ m := by
  intro e he
  unfold mapUpsert at he
  split at he
  · rcases List.mem_map.mp he with ⟨e', he', heq⟩
    by_cases hk : e'.1 == k
    · rw [if_pos hk] at heq
      exact Or.inl heq.symm
    · rw [if_neg (by simpa using hk)] at heq
      exact Or.inr (heq ▸ he')
  · rcases List.mem_append.mp he with h | h
    · exact Or.inr h
    · exact Or.inl (List.mem_singleton.mp h)

theorem mapUpsert_key_self (m : List (Str × β)) (k : Str) (v : β) :
    ∃ e ∈ mapUpsert m k v, e.1 = k := by
  unfold mapUpsert
  by_cases h : m.any (fun e => e.1 == k)
  · rw [if_pos h]
    rcases List.any_eq_true.mp h with ⟨e, he, hk⟩
    exact ⟨(k, v), List.mem_map.mpr ⟨e, he, by rw [if_pos hk]⟩, rfl⟩
  · rw [if_neg h]
    exact ⟨(k, v), List.mem_append.mpr (Or.inr (List.mem_singleton.mpr rfl)), rfl⟩

theorem mapUpsert_key_preserved (m : List (Str × β)) (k : Str) (v : β)
    (k' : Str) (h : ∃ e ∈ m, e.1 = k') :
    ∃ e ∈ mapUpsert m k v, e.1 = k' := by
  obtain ⟨e, he, hk⟩ := h
  unfold mapUpsert
  by_cases hall : m.any (fun e => e.1 == k)
  · rw [if_pos hall]
    by_cases hek : e.1 == k
    · refine ⟨(k, v), List.mem_map.mpr ⟨e, he, by rw [if_pos hek]⟩, ?_⟩
      have hek' : e.1 = k := by simpa using hek
      rw [← hk, hek']
    · exact ⟨e, List.mem_map.mpr ⟨e, he, by rw [if_neg (by simpa using hek)]⟩, hk⟩
  · rw [if_neg hall]
    exact ⟨e, List.mem_append.mpr (Or.inl he), hk⟩

theorem find?_cons_pos (p : α → Bool) (a : α) (l : List α) (h : p a = true) :
    List.find? p (a :: l) = some a := List.find?_cons_of_pos l h

theorem find?_cons_neg (p : α → Bool) (a : α) (l : List α) (h : ¬p a = true) :
    List.find? p (a :: l) = List.find? p l :=
  List.find?_cons_of_neg l (by simpa using h)

theorem mapFind_mem (m : List (Str × β)) (k : Str) (z : β)
    (h : ∃ e ∈ m, e.1 = k) : ∃ e ∈ m, mapFind m k z = e.2 := by
  induction m with
  | nil =>
      obtain ⟨e, he, _⟩ := h
      cases he
  | cons e0 rest ih =>
      by_cases h0 : (e0.1 == k) = true
      · refine ⟨e0, List.mem_cons_self e0 rest, ?_⟩
        unfold mapFind
        rw [find?_cons_pos (fun e => e.1 == k) e0 rest h0]
      · obtain ⟨e, he, hk⟩ := h
        rcases List.mem_cons.mp he with rfl | he'
        · exact absurd (by simp [hk]) h0
        · obtain ⟨e', he'', hf⟩ := ih ⟨e, he', hk⟩
          refine ⟨e', List.mem_cons_of_mem e0 he'', ?_⟩
          unfold mapFind at hf ⊢
          rw [find?_cons_neg (fun e => e.1 == k) e0 rest h0]
          exact hf

theorem splitAllAux_field (sep : Char) (f : Str) (hf : sep ∉ f) :
    ∀ rest acc, splitAllAux sep (f ++ rest) acc =
      splitAllAux sep rest (f.reverse ++ acc) := by
  induction f with
  | nil => intro rest acc; simp
  | cons c cs ih =>
      intro rest acc
      have hcs : ¬((c == sep) = true) := by
        intro h
        have hce : c = sep := by simpa using h
        exact hf (List.mem_cons.mpr (Or.inl hce.symm))
      have hcm : sep ∉ cs := fun h => hf (List.mem_cons_of_mem c h)
      have h1 : splitAllAux sep ((c :: cs) ++ rest) acc
          = splitAllAux sep (cs ++ rest) (c :: acc) := by
        show splitAllAux sep (c :: (cs ++ rest)) acc = _
        conv_lhs => rw [splitAllAux]
        rw [if_neg hcs]
      rw [h1, ih hcm rest (c :: acc)]
      simp

theorem splitAll_joinSep (sep : Char) (fs : List Str) (hne : fs ≠ [])
    (h : ∀ f ∈ fs, sep ∉ f) : splitAll sep (joinSep sep fs) = fs := by
  induction fs with
  | nil => exact absurd rfl hne
  | cons f fs ih =>
      cases fs with
      | nil =>
          show splitAllAux sep f [] = [f]
          have := splitAllAux_field sep f (h f (List.mem_singleton.mpr rfl)) [] []
          rw [List.append_nil] at this
          rw [this]
          simp [splitAllAux]
      | cons g gs =>
          show splitAllAux sep (f ++ sep :: joinSep sep (g :: gs)) [] = _
          rw [splitAllAux_field sep f (h f (List.mem_cons_self f _)) _ []]
          unfold splitAllAux
          rw [if_pos (by simp)]
          have ihr := ih (by simp)
            (fun x hx => h x (List.mem_cons_of_mem f hx))
          unfold splitAll at ihr
          rw [ihr]
          simp

theorem sortFileLink_key_mem (lm : List (Str × FileLinkM))
    (item : SortFileLinkByFields) (h : item ∈ sortFileLink lm) :
    ∃ e ∈ lm, e.1 = item.key := by
  unfold sortFileLink at h
  have hm := (List.perm_insertionSort sortLinkLE _).mem_iff.mp h
  obtain ⟨e, he, heq⟩ := List.mem_map.mp hm
  exact ⟨e, he, by rw [← heq]⟩

theorem strReplaceChar_pipe_clean (s : Str) (hnl : ∀ c ∈ s, c ≠ '\n') :
    noPipeNl (strReplaceChar s '|' ' ') := by
  intro c hc
  unfold strReplaceChar at hc
  obtain ⟨d, hd, hdc⟩ := List.mem_map.mp hc
  by_cases hdp : (d == '|') = true
  · rw [if_pos hdp] at hdc
    rw [← hdc]
    exact ⟨by decide, by decide⟩
  · rw [if_neg hdp] at hdc
    rw [← hdc]
    exact ⟨by simpa using hdp, hnl d hd⟩

theorem foldl_mapUpsert_clean {γ : Type} (key : γ → Str) (val : γ → FileLinkM)
    (P : FileLinkM → Prop) :
    ∀ (ls : List γ) (m : List (Str × FileLinkM)),
    (∀ q ∈ ls, P (val q)) →
    (∀ e ∈ m, P e.2) →
    ∀ e ∈ ls.foldl (fun m q => mapUpsert m (key q) (val q)) m, P e.2 := by
  intro ls
  induction ls with
  | nil =>
      intro m _ hm e he
      exact hm e he
  | cons q qs ih =>
      intro m hqs hm e he
      rw [List.foldl_cons] at he
      refine ih _ (fun x hx => hqs x (List.mem_cons_of_mem q hx)) ?_ e he
      intro e' he'
      rcases mapUpsert_mem _ _ _ e' he' with heq | hmem
      · rw [heq]
        exact hqs q (List.mem_cons_self q qs)
      · exact hm e' hmem

set_option maxHeartbeats 1600000 in
theorem storePage_clean (st : ParseState) (content : WatPageM) (ip imported : Str)
    (hlm : ∀ e ∈ st.linkMap, CleanLink e.2 ∧ ∃ p ∈ st.pageMap, p.1 = e.2.pageHash)
    (hpm : ∀ e ∈ st.pageMap, CleanPage e.2)
    (hsrc : CleanSrc content.urlRec)
    (hlinks : ∀ q ∈ content.links, CleanSrc q.1 ∧ noPipeNl q.1.domain ∧
      noPipeNl q.1.subDomain ∧ (∀ c ∈ q.1.text, c ≠ '\n'))
    (hip : noPipeNl ip) (himp : noPipeNl imported)
    (hni : content.noIndex = 0 ∨ content.noIndex = 1) :
    (∀ e ∈ (storePage st content ip imported).linkMap,
      CleanLink e.2 ∧
        ∃ p ∈ (storePage st content ip imported).pageMap, p.1 = e.2.pageHash) ∧
    (∀ e ∈ (storePage st content ip imported).pageMap, CleanPage e.2) := by
  refine ⟨?_, ?_⟩
  · intro e he
    have he' : e ∈ content.links.foldl (fun m ul =>
        mapUpsert m (ul.1.host ++ ul.1.path ++ ul.1.rawQuery ++
          content.urlRec.host ++ content.urlRec.path ++ content.urlRec.rawQuery)
          { linkHost := ul.1.host, linkPath := ul.1.path
            linkRawQuery := ul.1.rawQuery, linkScheme := ul.1.scheme
            linkText := strReplaceChar ul.1.text '|' ' '
            noFollow := if ul.2 = 1 then 1 else 0, noIndex := content.noIndex
            imported := imported, ip := ip
            pageHash := content.urlRec.host ++ content.urlRec.path ++
              content.urlRec.rawQuery
            linkDomain := ul.1.domain, linkSubDomain := ul.1.subDomain })
        st.linkMap := he
    have hmain := foldl_mapUpsert_clean
      (fun (ul : BuiltURL × Int) => ul.1.host ++ ul.1.path ++ ul.1.rawQuery ++
        content.urlRec.host ++ content.urlRec.path ++ content.urlRec.rawQuery)
      (fun (ul : BuiltURL × Int) =>
        { linkHost := ul.1.host, linkPath := ul.1.path
          linkRawQuery := ul.1.rawQuery, linkScheme := ul.1.scheme
          linkText := strReplaceChar ul.1.text '|' ' '
          noFollow := if ul.2 = 1 then 1 else 0, noIndex := content.noIndex
          imported := imported, ip := ip
          pageHash := content.urlRec.host ++ content.urlRec.path ++
            content.urlRec.rawQuery
          linkDomain := ul.1.domain, linkSubDomain := ul.1.subDomain })
      (fun v => CleanLink v ∧
        ∃ p ∈ mapUpsert st.pageMap (content.urlRec.host ++ content.urlRec.path ++
            content.urlRec.rawQuery)
          { host := content.urlRec.host, path := content.urlRec.path
            rawQuery := content.urlRec.rawQuery, scheme := content.urlRec.scheme
            title := strReplaceChar content.title '|' ' ', ip := ip
            imported := imported, internalLinks := content.internalLinks
            externalLinks := content.externalLinks
            noIndex := content.noIndex }, p.1 = v.pageHash)
      content.links st.linkMap ?_ ?_ e he'
    · exact hmain
    · intro q hq
      obtain ⟨⟨qh, qp, qq, qs⟩, qdom, qsub, qtext⟩ := hlinks q hq
      refine ⟨⟨qdom, qsub, qp, qq, qs,
        strReplaceChar_pipe_clean _ qtext, ?_⟩, ?_⟩
      · show (if q.2 = 1 then (1 : Int) else 0) = 0 ∨
          (if q.2 = 1 then (1 : Int) else 0) = 1
        by_cases h2 : q.2 = 1
        · rw [if_pos h2]
          exact Or.inr rfl
        · rw [if_neg h2]
          exact Or.inl rfl
      · exact mapUpsert_key_self st.pageMap _ _
    · intro e' he''
      obtain ⟨hcl, hex⟩ := hlm e' he''
      exact ⟨hcl, mapUpsert_key_preserved _ _ _ _ hex⟩
  · intro e he
    have he' : e ∈ mapUpsert st.pageMap
        (content.urlRec.host ++ content.urlRec.path ++ content.urlRec.rawQuery)
        { host := content.urlRec.host, path := content.urlRec.path
          rawQuery := content.urlRec.rawQuery, scheme := content.urlRec.scheme
          title := strReplaceChar content.title '|' ' ', ip := ip
          imported := imported, internalLinks := content.internalLinks
          externalLinks := content.externalLinks
          noIndex := content.noIndex } := he
    rcases mapUpsert_mem _ _ _ e he' with heq | hmem
    · rw [heq]
      exact ⟨hsrc.1, hsrc.2.1, hsrc.2.2.1, hsrc.2.2.2, hni, himp, hip⟩
    · exact hpm e hmem

theorem cleanViewB_spec (v : WatJsonView) (h : cleanViewB v = true) :
    noPipeNl v.warcIP ∧
    (∀ ls, v.links = .ok ls → ∀ ld ∈ ls, ∀ c ∈ ld.text, c ≠ '\n') := by
  unfold cleanViewB at h
  simp only [Bool.and_eq_true] at h
  obtain ⟨⟨h1, h2⟩, h3⟩ := h
  refine ⟨?_, ?_⟩
  · intro c hc
    constructor
    · intro hcp
      exact absurd hc (hcp ▸ strHasChar_false_not_mem _ _ (by simpa using h1))
    · intro hcn
      exact absurd hc (hcn ▸ strHasChar_false_not_mem _ _ (by simpa using h2))
  · intro ls hls ld hld c hc hcn
    rw [hls] at h3
    dsimp only at h3
    have h4 := List.all_eq_true.mp h3 ld hld
    exact absurd hc (hcn ▸ strHasChar_false_not_mem _ _ (by simpa using h4))

set_option maxHeartbeats 1600000 in
theorem parseWatLineStep_clean (st : ParseState) (l : WatLine) (st' : ParseState)
    (hst : StateClean st) (hl : cleanLineB l = true)
    (h : parseWatLineStep st l = .ok st') : StateClean st' := by
  obtain ⟨hlm, hpm, hvp⟩ := hst
  cases l with
  | raw s =>
      simp only [parseWatLineStep] at h
      split at h
      · split at h
        · cases h
          exact ⟨hlm, hpm, fun hv => nomatch hv⟩
        · rename_i u hu
          split at h
          · cases h
            exact ⟨hlm, hpm, fun hv => nomatch hv⟩
          · rename_i hq
            cases h
            refine ⟨hlm, hpm, ?_⟩
            intro _
            refine ⟨u, rfl, ?_⟩
            obtain ⟨hh, hp, hqnl, _, _, hsch, _⟩ :=
              buildURLRecord_clean none _ u hu
            have hqp : strHasChar u.rawQuery '|' = false :=
              verifyRecordQuality_query u (by simpa using hq)
            refine ⟨hh, hp, ?_, hsch⟩
            intro c hc
            exact ⟨fun hcp =>
              absurd hc (hcp ▸ strHasChar_false_not_mem _ _ hqp), hqnl c hc⟩
      · cases h
        exact ⟨hlm, hpm, hvp⟩
  | json hasHref v =>
      have hv2 : cleanViewB v = true := hl
      obtain ⟨hipc, htextc⟩ := cleanViewB_spec v hv2
      simp only [parseWatLineStep] at h
      split at h
      · rename_i hvh
        have hvt : st.validPage = true := (Bool.and_eq_true _ _ |>.mp hvh).1
        split at h
        · cases h
          exact ⟨hlm, hpm, fun hv => nomatch hv⟩
        · rename_i src hsrc'
          obtain ⟨src0, hsrc0, hcl⟩ := hvp hvt
          rw [hsrc0] at hsrc'
          have hsrceq : src0 = src := Option.some.inj hsrc'
          subst hsrceq
          split at h
          · cases h
            exact ⟨hlm, hpm, fun hv => nomatch hv⟩
          · rename_i content hct
            obtain ⟨ls, hls, hip_eq, himp_eq, hni_eq, hlinks_eq, hurl_eq⟩ :=
              readPageContent_spec v src0 content hct
            split at h
            · split at h
              · cases h
              · rename_i ipv hip'
                split at h
                · cases h
                · rename_i impv himp'
                  cases h
                  have hipv : ipv = v.warcIP := by
                    rw [hip_eq] at hip'
                    by_cases hw : v.warcIP ≠ []
                    · rw [if_pos hw] at hip'
                      exact (Option.some.inj hip').symm
                    · rw [if_neg hw] at hip'
                      cases hip'
                  have himpv : goParseWatDate v.warcDate = some impv := by
                    rw [himp_eq] at himp'
                    exact himp'
                  have hmaps := storePage_clean { st with validPage := false }
                    content ipv impv hlm hpm
                    (by rw [hurl_eq]; exact hcl)
                    ?_ (by rw [hipv]; exact hipc)
                    (goParseWatDate_clean _ _ himpv)
                    (by rw [hni_eq]; exact (getNoFollowNoIndex_flags v.metas).1)
                  · exact ⟨hmaps.1, hmaps.2, fun hv => nomatch hv⟩
                  · intro q hq
                    rw [hlinks_eq] at hq
                    obtain ⟨ld, hld, hbuild, hqual⟩ :=
                      parseLinks_mem ls src0 _ q hq
                    obtain ⟨hh, hp, hqnl, hd, hs, hsch, htxt⟩ :=
                      buildURLRecord_clean (some ld.text) ld.url q.1 hbuild
                    have hqp : strHasChar q.1.rawQuery '|' = false :=
                      verifyRecordQuality_query q.1 hqual
                    refine ⟨⟨hh, hp, ?_, hsch⟩, hd, hs, ?_⟩
                    · intro c hc
                      exact ⟨fun hcp =>
                        absurd hc (hcp ▸ strHasChar_false_not_mem _ _ hqp),
                        hqnl c hc⟩
                    · intro c hc
                      rw [htxt] at hc
                      exact htextc ls hls ld hld c hc
            · cases h
              exact ⟨hlm, hpm, fun hv => nomatch hv⟩
      · cases h
        exact ⟨hlm, hpm, hvp⟩

theorem parseWatLines_clean : ∀ (lines : List WatLine) (st st' : ParseState),
    StateClean st → (∀ l ∈ lines, cleanLineB l = true) →
    parseWatLines lines st = .ok st' → StateClean st' := by
  intro lines
  induction lines with
  | nil =>
      intro st st' hst _ h
      cases h
      exact hst
  | cons l ls ih =>
      intro st st' hst hcl h
      unfold parseWatLines at h
      split at h
      · cases h
      · rename_i st1 hstep
        exact ih st1 st'
          (parseWatLineStep_clean st l st1 hst
            (hcl l (List.mem_cons_self l ls)) hstep)
          (fun x hx => hcl x (List.mem_cons_of_mem l hx)) h

theorem initParseState_clean : StateClean initParseState := by
  refine ⟨?_, ?_, ?_⟩
  · intro e he
    exact absurd he (List.not_mem_nil e)
  · intro e he
    exact absurd he (List.not_mem_nil e)
  · intro hv
    exact absurd hv (by decide)

theorem ParseWatByLine_clean (lines : List WatLine)
    (lm : List (Str × FileLinkM)) (pm : List (Str × FilePageM))
    (hcl : ∀ l ∈ lines, cleanLineB l = true)
    (h : ParseWatByLine lines = .ok (lm, pm)) :
    (∀ e ∈ lm, CleanLink e.2 ∧ ∃ p ∈ pm, p.1 = e.2.pageHash) ∧
    (∀ e ∈ pm, CleanPage e.2) := by
  unfold ParseWatByLine at h
  split at h
  · cases h
  · rename_i st hrun
    cases h
    have hst := parseWatLines_clean lines initParseState st
      initParseState_clean hcl hrun
    exact ⟨hst.1, hst.2.1⟩

instance noPipeNlDec (s : Str) : Decidable (noPipeNl s) :=
  List.decidableBAll (fun c => c ≠ '|' ∧ c ≠ '\n') s

theorem linkFields_clean (c : FileLinkM) (p : FilePageM)
    (hc : CleanLink c) (hp : CleanPage p) :
    ∀ f ∈ linkFields c p, noPipeNl f := by
  intro f hf
  obtain ⟨hd, hsd, hpth, hq, hsch, htxt, hnf⟩ := hc
  obtain ⟨hh, hpp, hpq, hps, hpni, himp, hip⟩ := hp
  unfold linkFields at hf
  simp only [List.mem_cons, List.not_mem_nil, or_false] at hf
  rcases hf with rfl | rfl | rfl | rfl | rfl | rfl | rfl | rfl | rfl | rfl |
    rfl | rfl | rfl | rfl
  · exact hd
  · exact hsd
  · exact hpth
  · exact hq
  · rcases hsch with h1 | h1 | h1 <;> (rw [h1]; decide)
  · exact hh
  · exact hpp
  · exact hpq
  · rcases hps with h1 | h1 | h1 <;> (rw [h1]; decide)
  · exact htxt
  · rcases hnf with h1 | h1 <;> (rw [h1]; decide)
  · rcases hpni with h1 | h1 <;> (rw [h1]; decide)
  · exact himp
  · exact hip

/-- A JSON view of a clean page except that its WARC-IP-Address header
contains a `|`. -/
def c6view : WatJsonView :=
  { links := .ok [linkB], warcIP := str "1.2|3.4"
    warcDate := str "2023-01-15T10:20:30Z", title := str "T"
    metas := .ok [], headLink := .absent }

/-- The C6 counterexample input: one page whose WARC-IP-Address holds a
`|`, with one valid external link. -/
def c6input : List WatLine := [watURIline, WatLine.json true c6view]

/-- Link map of the C6 counterexample run. -/
def c6lm : List (Str × FileLinkM) := goResultLinkMap (ParseWatByLine c6input)

/-- Page map of the C6 counterexample run. -/
def c6pm : List (Str × FilePageM) := goResultPageMap (ParseWatByLine c6input)

/-- C6 counterexample: the claim promises exactly 14 `|`-separated fields
per emitted line for every possible WAT input, including arbitrary
WARC-IP-Address values.  The code stores the WARC-IP-Address header
verbatim (wat.go reads it with gjson and never validates it), and
`saveLinkFile` joins it into the line, so an IP header containing `|`
yields a line that splits into 15 fields. -/
theorem C6_ip_pipe_extra_fields :
    ParseWatByLine c6input = .ok (c6lm, c6pm) ∧
    (saveLinkFile c6lm c6pm).length = 1 ∧
    ∀ line ∈ saveLinkFile c6lm c6pm, (splitAll '|' line).length = 15 := by
  refine ⟨by decide, by decide, by decide⟩

/-- C6 (amended): for every WAT input whose scan completes and whose JSON
views are clean - the WARC-IP-Address header free of `|` and newline, and
no anchor text containing a newline - every line of the emitted link file
splits at `|` into exactly 14 fields, no field contains `|` or a newline,
the linkScheme and pageScheme fields (positions 4 and 8) are each one of
"0", "1", "2", and the noFollow and noIndex fields (positions 10 and 11)
are each "0" or "1".  Without the cleanliness hypothesis the claim fails:
see the counterexample above. -/
theorem C6_emitted_link_lines_clean (lines : List WatLine)
    (lm : List (Str × FileLinkM)) (pm : List (Str × FilePageM))
    (hcl : ∀ l ∈ lines, cleanLineB l = true)
    (h : ParseWatByLine lines = .ok (lm, pm)) :
    ∀ line ∈ saveLinkFile lm pm,
      (splitAll '|' line).length = 14 ∧
      (∀ f ∈ splitAll '|' line, noPipeNl f) ∧
      scheme3 ((splitAll '|' line).getD 4 []) ∧
      scheme3 ((splitAll '|' line).getD 8 []) ∧
      bin01 ((splitAll '|' line).getD 10 []) ∧
      bin01 ((splitAll '|' line).getD 11 []) := by
  intro line hline
  obtain ⟨hmaps, hpages⟩ := ParseWatByLine_clean lines lm pm hcl h
  unfold saveLinkFile at hline
  obtain ⟨item, hitem, hline_eq⟩ := List.mem_map.mp hline
  obtain ⟨e, he, hekey⟩ := sortFileLink_key_mem lm item hitem
  obtain ⟨e', he', hfind⟩ := mapFind_mem lm item.key zeroFileLinkM ⟨e, he, hekey⟩
  obtain ⟨hclean, hpx⟩ := hmaps e' he'
  obtain ⟨p', hp', hpfind⟩ := mapFind_mem pm e'.2.pageHash zeroFilePageM hpx
  have hpclean := hpages p' hp'
  subst hline_eq
  dsimp only
  rw [hfind, hpfind]
  have hfc := linkFields_clean e'.2 p'.2 hclean hpclean
  have hnosep : ∀ f ∈ linkFields e'.2 p'.2, '|' ∉ f := by
    intro f hf hmem
    exact (hfc f hf '|' hmem).1 rfl
  have hsplit : splitAll '|' (joinSep '|' (linkFields e'.2 p'.2)) =
      linkFields e'.2 p'.2 :=
    splitAll_joinSep '|' _ (by simp [linkFields]) hnosep
  rw [hsplit]
  obtain ⟨_, _, _, _, hsch, _, hnf⟩ := hclean
  obtain ⟨_, _, _, hps, hpni, _, _⟩ := hpclean
  refine ⟨by simp [linkFields], hfc, ?_, ?_, ?_, ?_⟩
  · exact hsch
  · exact hps
  · show bin01 (intToStr e'.2.noFollow)
    rcases hnf with h1 | h1
    · rw [h1]
      exact Or.inl intToStr_zero
    · rw [h1]
      exact Or.inr intToStr_one
  · show bin01 (intToStr p'.2.noIndex)
    rcases hpni with h1 | h1
    · rw [h1]
      exact Or.inl intToStr_zero
    · rw [h1]
      exact Or.inr intToStr_one

/-- A clean page view for the C6 witness: dotted IP, parseable date, one
valid external link with newline-free anchor text. -/
def c6wview : WatJsonView :=
  { links := .ok [linkB], warcIP := str "1.2.3.4"
    warcDate := str "2023-01-15T10:20:30Z", title := str "T"
    metas := .ok [], headLink := .absent }

/-- The C6 witness input. -/
def c6winput : List WatLine := [watURIline, WatLine.json true c6wview]

/-- Link map of the C6 witness run. -/
def c6wlm : List (Str × FileLinkM) := goResultLinkMap (ParseWatByLine c6winput)

/-- Page map of the C6 witness run. -/
def c6wpm : List (Str × FilePageM) := goResultPageMap (ParseWatByLine c6winput)

/-- C6 witness: a concrete clean completed run satisfying the amended
field invariants. -/
theorem C6_emitted_link_lines_clean_witness :
    (∀ l ∈ c6winput, cleanLineB l = true) ∧
    ∀ line ∈ saveLinkFile c6wlm c6wpm,
      (splitAll '|' line).length = 14 ∧
      (∀ f ∈ splitAll '|' line, noPipeNl f) ∧
      scheme3 ((splitAll '|' line).getD 4 []) ∧
      scheme3 ((splitAll '|' line).getD 8 []) ∧
      bin01 ((splitAll '|' line).getD 10 []) ∧
      bin01 ((splitAll '|' line).getD 11 []) :=
  ⟨by decide,
   C6_emitted_link_lines_clean c6winput c6wlm c6wpm (by decide) (by decide)⟩
